import Mathlib

/-!
Verification of the blur/PSF core of the deepinv repository
(src/deepinv/physics/blur/blur.py and src/deepinv/physics/generator/blur.py)
against its natural-language specification.

The Python code is shallowly embedded:
images and kernels are total functions with explicit dimensions
(values outside the declared ranges are irrelevant or zero-guarded),
real scalars are modelled by the rationals where the computation is rational,
and by the Lean reals and complexes where the source uses transcendental
functions (FFT, Gaussian processes, Zernike pupils).
Stateful constructor code is modelled by explicit attribute records and
Except-valued initialisers.
-/

set_option maxRecDepth 8000

namespace DeepInv

/-! ## Padding policies

The source passes a padding string to F.pad;
the four policies named in the spec are valid, circular, reflect, replicate. -/

inductive PadMode where
  | valid : PadMode
  | circular : PadMode
  | reflect : PadMode
  | replicate : PadMode
deriving DecidableEq, Repr, Fintype

/-- Padding extent used by conv and conv_transpose:
ph = int((h - 1) / 2) in the source (truncating division). -/
def padExtent (h : ℕ) : ℕ := (h - 1) / 2

/-- Index map of F.pad for a single spatial axis: a padded index
i in range (size + 2*p) is mapped to the index of the original axis of
length size from which its value is copied.
circular: wrap-around; reflect: mirror without repeating the edge;
replicate: clamp to the edge.  (For valid, no padding happens.) -/
def padIdx : PadMode → ℕ → ℕ → ℕ → ℕ
  | PadMode.valid, _, _, i => i
  | PadMode.circular, size, p, i => (i + size - p) % size
  | PadMode.reflect, size, p, i =>
      if i < p then p - i else if i < size + p then i - p else 2 * size + p - 2 - i
  | PadMode.replicate, size, p, i =>
      if i < p then 0 else if i < size + p then i - p else size - 1

/-- Rational indicator of a decidable proposition. -/
def indQ (P : Prop) [Decidable P] : ℚ := if P then 1 else 0

/-- Depthwise valid cross-correlation of one plane with one kernel plane:
F.conv2d(x, k, padding=valid) computes
out[i][j] = sum over d < h, e < w of k[d][e] * x[i+d][j+e]. -/
def cc (h w : ℕ) (k x : ℕ → ℕ → ℚ) (i j : ℕ) : ℚ :=
  ∑ d ∈ Finset.range h, ∑ e ∈ Finset.range w, k d e * x (i + d) (j + e)

/-- Full transpose convolution of one plane with one kernel plane:
F.conv_transpose2d(y, k) computes
z[n][m] = sum over d < h, e < w with d <= n, n-d < Hy, e <= m, m-e < Wy of
k[d][e] * y[n-d][m-e] (and the output has spatial size (Hy+h-1, Wy+w-1)). -/
def ct (Hy Wy h w : ℕ) (k y : ℕ → ℕ → ℚ) (n m : ℕ) : ℚ :=
  ∑ d ∈ Finset.range h, ∑ e ∈ Finset.range w,
    k d e * indQ (d ≤ n ∧ n - d < Hy) * indQ (e ≤ m ∧ m - e < Wy)
      * y (n - d) (m - e)

/-- Output height of conv (blur.py, conv): for valid padding the output is
smaller by h-1; otherwise the image is padded by ph = (h-1)/2 on each side
and then convolved with valid semantics, giving size H + 2*ph - h + 1.
(The source does NOT call extend_filter, so for an even kernel size this is
H - 1, not H.) -/
def convOutH (m : PadMode) (H h : ℕ) : ℕ :=
  match m with
  | PadMode.valid => H + 1 - h
  | _ => H + 2 * padExtent h + 1 - h

/-- Output width of conv; same rule as the height. -/
def convOutW (m : PadMode) (W w : ℕ) : ℕ := convOutH m W w

/-- One batch/channel plane of conv (blur.py lines 243-283): pad the plane
with the requested boundary rule by (ph, pw), then depthwise valid
cross-correlation.  Values outside the output range are zero-guarded. -/
def convPlane (m : PadMode) (H W h w : ℕ) (k x : ℕ → ℕ → ℚ) (i j : ℕ) : ℚ :=
  if i < convOutH m H h ∧ j < convOutW m W w then
    match m with
    | PadMode.valid => cc h w k x i j
    | _ => cc h w k
        (fun a b => x (padIdx m H (padExtent h) a) (padIdx m W (padExtent w) b)) i j
  else 0

/-! ## The boundary folding of conv_transpose (blur.py lines 286-369)

After the full transpose convolution z (spatial size (Ho+2p) x (Wo+2q),
where Ho x Wo is the cropped output size), the source crops the interior
out = z[p:-p, q:-q] and then adds the halo strips and corners back onto out,
in place.  The writes all land in the interior region of z and the reads all
come from the halo, so the in-place accumulation equals the functional sum
below.  The 1D folds describe the action on one axis. -/

/-- 1D circular fold: out[:p] += z[-p:] side becomes the wrap terms. -/
def fold1c (H p : ℕ) (z : ℕ → ℚ) (n : ℕ) : ℚ :=
  z (n + p) + indQ (n < p) * z (H + p + n)
    + indQ (H - p ≤ n) * z (n - (H - p))

/-- 1D reflect fold: out[1:1+p] += z[:p].flip and out[-p-1:-1] += z[-p:].flip. -/
def fold1r (H p : ℕ) (z : ℕ → ℚ) (n : ℕ) : ℚ :=
  z (n + p) + indQ (1 ≤ n ∧ n < 1 + p) * z (p - n)
    + indQ (H - 1 - p ≤ n ∧ n < H - 1) * z (2 * H + p - 2 - n)

/-- 1D replicate fold: out[0] += z[:p].sum() and out[-1] += z[-p:].sum(). -/
def fold1p (H p : ℕ) (z : ℕ → ℚ) (n : ℕ) : ℚ :=
  z (n + p) + indQ (n = 0) * (∑ i ∈ Finset.range p, z i)
    + indQ (n = H - 1) * (∑ i ∈ Finset.range p, z (H + p + i))

/-- 2D circular fold, translated slice by slice from the source:
interior crop plus 4 side strips plus 4 corners. -/
def fold2c (Ho Wo p q : ℕ) (z : ℕ → ℕ → ℚ) (n m : ℕ) : ℚ :=
  z (n + p) (m + q)
    + indQ (n < p) * z (Ho + p + n) (m + q)
    + indQ (Ho - p ≤ n) * z (n - (Ho - p)) (m + q)
    + indQ (m < q) * z (n + p) (Wo + q + m)
    + indQ (Wo - q ≤ m) * z (n + p) (m - (Wo - q))
    + indQ (n < p) * indQ (m < q) * z (Ho + p + n) (Wo + q + m)
    + indQ (Ho - p ≤ n) * indQ (Wo - q ≤ m) * z (n - (Ho - p)) (m - (Wo - q))
    + indQ (n < p) * indQ (Wo - q ≤ m) * z (Ho + p + n) (m - (Wo - q))
    + indQ (Ho - p ≤ n) * indQ (m < q) * z (n - (Ho - p)) (Wo + q + m)

/-- 2D reflect fold, translated slice by slice from the source
(the flips reverse each halo strip before accumulation). -/
def fold2r (Ho Wo p q : ℕ) (z : ℕ → ℕ → ℚ) (n m : ℕ) : ℚ :=
  z (n + p) (m + q)
    + indQ (1 ≤ n ∧ n < 1 + p) * z (p - n) (m + q)
    + indQ (Ho - 1 - p ≤ n ∧ n < Ho - 1) * z (2 * Ho + p - 2 - n) (m + q)
    + indQ (1 ≤ m ∧ m < 1 + q) * z (n + p) (q - m)
    + indQ (Wo - 1 - q ≤ m ∧ m < Wo - 1) * z (n + p) (2 * Wo + q - 2 - m)
    + indQ (1 ≤ n ∧ n < 1 + p) * indQ (1 ≤ m ∧ m < 1 + q) * z (p - n) (q - m)
    + indQ (Ho - 1 - p ≤ n ∧ n < Ho - 1) * indQ (Wo - 1 - q ≤ m ∧ m < Wo - 1)
        * z (2 * Ho + p - 2 - n) (2 * Wo + q - 2 - m)
    + indQ (Ho - 1 - p ≤ n ∧ n < Ho - 1) * indQ (1 ≤ m ∧ m < 1 + q)
        * z (2 * Ho + p - 2 - n) (q - m)
    + indQ (1 ≤ n ∧ n < 1 + p) * indQ (Wo - 1 - q ≤ m ∧ m < Wo - 1)
        * z (p - n) (2 * Wo + q - 2 - m)

/-- 2D replicate fold, translated slice by slice from the source
(each halo strip is summed along its normal axis onto the boundary). -/
def fold2p (Ho Wo p q : ℕ) (z : ℕ → ℕ → ℚ) (n m : ℕ) : ℚ :=
  z (n + p) (m + q)
    + indQ (n = 0) * (∑ i ∈ Finset.range p, z i (m + q))
    + indQ (n = Ho - 1) * (∑ i ∈ Finset.range p, z (Ho + p + i) (m + q))
    + indQ (m = 0) * (∑ j ∈ Finset.range q, z (n + p) j)
    + indQ (m = Wo - 1) * (∑ j ∈ Finset.range q, z (n + p) (Wo + q + j))
    + indQ (n = 0) * indQ (m = 0)
        * (∑ i ∈ Finset.range p, ∑ j ∈ Finset.range q, z i j)
    + indQ (n = Ho - 1) * indQ (m = Wo - 1)
        * (∑ i ∈ Finset.range p, ∑ j ∈ Finset.range q, z (Ho + p + i) (Wo + q + j))
    + indQ (n = Ho - 1) * indQ (m = 0)
        * (∑ i ∈ Finset.range p, ∑ j ∈ Finset.range q, z (Ho + p + i) j)
    + indQ (n = 0) * indQ (m = Wo - 1)
        * (∑ i ∈ Finset.range p, ∑ j ∈ Finset.range q, z i (Wo + q + j))

/-- Output height of conv_transpose.  For valid padding the full transpose
size Hy + h - 1.  Otherwise the interior crop z[ph:-ph]:
when ph = 0 the Python slice [0:-0] is EMPTY (slice(0, 0)), so the output
collapses to spatial size 0; when ph >= 1 it is Hy + h - 1 - 2*ph. -/
def convTOutH (m : PadMode) (Hy h : ℕ) : ℕ :=
  match m with
  | PadMode.valid => Hy + h - 1
  | _ => if padExtent h = 0 then 0 else Hy + h - 1 - 2 * padExtent h

/-- Output width of conv_transpose; same rule as the height. -/
def convTOutW (m : PadMode) (Wy w : ℕ) : ℕ := convTOutH m Wy w

/-- One batch/channel plane of conv_transpose (blur.py lines 286-369):
full transpose convolution, then the padding-specific boundary fold.
Values outside the output range are zero-guarded. -/
def convTPlane (m : PadMode) (Hy Wy h w : ℕ) (k y : ℕ → ℕ → ℚ) (n mm : ℕ) : ℚ :=
  if n < convTOutH m Hy h ∧ mm < convTOutW m Wy w then
    match m with
    | PadMode.valid => ct Hy Wy h w k y n mm
    | PadMode.circular =>
        fold2c (convTOutH m Hy h) (convTOutW m Wy w) (padExtent h) (padExtent w)
          (ct Hy Wy h w k y) n mm
    | PadMode.reflect =>
        fold2r (convTOutH m Hy h) (convTOutW m Wy w) (padExtent h) (padExtent w)
          (ct Hy Wy h w k y) n mm
    | PadMode.replicate =>
        fold2p (convTOutH m Hy h) (convTOutW m Wy w) (padExtent h) (padExtent w)
          (ct Hy Wy h w k y) n mm
  else 0

/-! ## 4D wrappers with batch/channel broadcasting

conv and conv_transpose fold the batch and channel dimensions into the
groups parameter of the underlying convolution, so plane (bi, ci) of the
output is the plane convolution of plane (bi, ci) of the input with the
kernel plane selected by broadcasting (a kernel batch/channel of size 1 is
expanded). -/

/-- Kernel plane used for image plane (bi, ci) when the kernel has batch
size b and channel size c (after the expand calls of the source). -/
def kernPlane (b c : ℕ) (k : ℕ → ℕ → ℕ → ℕ → ℚ) (bi ci : ℕ) : ℕ → ℕ → ℚ :=
  k (if b = 1 then 0 else bi) (if c = 1 then 0 else ci)

/-- conv (blur.py lines 243-283) on a 4D image. -/
def conv (m : PadMode) (H W b c h w : ℕ)
    (x k : ℕ → ℕ → ℕ → ℕ → ℚ) (bi ci : ℕ) : ℕ → ℕ → ℚ :=
  convPlane m H W h w (kernPlane b c k bi ci) (x bi ci)

/-- conv_transpose (blur.py lines 286-369) on a 4D image. -/
def conv_transpose (m : PadMode) (Hy Wy b c h w : ℕ)
    (y k : ℕ → ℕ → ℕ → ℕ → ℚ) (bi ci : ℕ) : ℕ → ℕ → ℚ :=
  convTPlane m Hy Wy h w (kernPlane b c k bi ci) (y bi ci)

/-- Inner product of two planes over an index range. -/
def dot2 (H W : ℕ) (f g : ℕ → ℕ → ℚ) : ℚ :=
  ∑ i ∈ Finset.range H, ∑ j ∈ Finset.range W, f i j * g i j

/-- Inner product of two 4D arrays over an index range. -/
def dot4 (B C H W : ℕ) (f g : ℕ → ℕ → ℕ → ℕ → ℚ) : ℚ :=
  ∑ bi ∈ Finset.range B, ∑ ci ∈ Finset.range C, dot2 H W (f bi ci) (g bi ci)

/-! ## extend_filter (blur.py lines 218-240)

Re-centers a kernel with an even or singleton spatial dimension into the
next odd size with a zero border.  DEAD CODE in this source tree: conv
never calls it (claim C4). -/

/-- New spatial size chosen by extend_filter for one axis. -/
def extendFilterSize (h : ℕ) : ℕ :=
  if h = 1 then 3 else if h % 2 = 0 then h + 1 else h

/-- Placement offset chosen by extend_filter for one axis. -/
def extendFilterOff (h : ℕ) : ℕ := if h = 1 then 1 else 0

/-- extend_filter on one kernel plane: zeros of the enlarged size with the
original kernel written at the offset block. -/
def extend_filter (h w : ℕ) (k : ℕ → ℕ → ℚ) (i j : ℕ) : ℚ :=
  if extendFilterOff h ≤ i ∧ i < h + extendFilterOff h
      ∧ extendFilterOff w ≤ j ∧ j < w + extendFilterOff w then
    k (i - extendFilterOff h) (j - extendFilterOff w)
  else 0

/-! ## Concrete inputs used by the claim evaluations -/

/-- 16x16 all-zero image with a single 1 at pixel (8,8) (claim C3). -/
def x16C3 : ℕ → ℕ → ℚ := fun i j => if i = 8 ∧ j = 8 then 1 else 0

/-- 2x2 uniform averaging kernel, all entries 1/4 (claim C3). -/
def k22C3 : ℕ → ℕ → ℚ := fun d e => if d < 2 ∧ e < 2 then 1 / 4 else 0

/-- 4D delta image at (0, 0, 0, 0) on a 2x2 spatial grid (claim C1). -/
def xC1 : ℕ → ℕ → ℕ → ℕ → ℚ := fun _ _ i j => if i = 0 ∧ j = 0 then 1 else 0

/-- 4D 2x2 uniform averaging kernel (claim C1). -/
def kC1 : ℕ → ℕ → ℕ → ℕ → ℚ := fun _ _ d e => if d < 2 ∧ e < 2 then 1 / 4 else 0

/-- 4D all-ones measurement (claim C1). -/
def yC1 : ℕ → ℕ → ℕ → ℕ → ℚ := fun _ _ _ _ => 1

/-- 4D 3x3 kernel for the C1 witness: entries d*3+e+1. -/
def kW1 : ℕ → ℕ → ℕ → ℕ → ℚ := fun _ _ d e =>
  if d < 3 ∧ e < 3 then (d * 3 + e + 1 : ℚ) else 0

/-- 4D 4x4 test image for the C1 witness: entries i*4+j. -/
def xW1 : ℕ → ℕ → ℕ → ℕ → ℚ := fun _ _ i j =>
  if i < 4 ∧ j < 4 then (i * 4 + j : ℚ) else 0

/-- 4D 4x4 test measurement for the C1 witness: entries i+2*j. -/
def yW1 : ℕ → ℕ → ℕ → ℕ → ℚ := fun _ _ i j =>
  if i < 4 ∧ j < 4 then (i + 2 * j : ℚ) else 0

/-! ## Constructor models (blur.py Downsampling.__init__ lines 124-168,
Blur.__init__ lines 471-478, Blur.A / Blur.A_adjoint lines 480-484)

Attribute state is explicit: an Option field is none while the Python
attribute has never been assigned; reading an unassigned attribute of an
nn.Module raises AttributeError. -/

/-- The kind of filter argument passed to a constructor.
torch.nn.Parameter is a subclass of torch.Tensor, so an isinstance Tensor
test is also true for a Parameter. -/
inductive FilterArg where
  | parameter : FilterArg
  | tensor : FilterArg
  | presetGaussian : FilterArg
  | presetBilinear : FilterArg
  | presetBicubic : FilterArg
  | noFilter : FilterArg
  | unknownString : FilterArg
deriving DecidableEq, Repr, Fintype

/-- Errors raised during construction or use of an operator. -/
inductive InitError where
  | attributeError : InitError
  | exceptionUnknownFilter : InitError
deriving DecidableEq, Repr, Fintype

/-- Decidable equality of Except values with decidable components. -/
instance instDecEqExcept {e a : Type} [DecidableEq e] [DecidableEq a] :
    DecidableEq (Except e a) := fun u v =>
  match u, v with
  | Except.ok x, Except.ok y =>
      if h : x = y then Decidable.isTrue (by rw [h])
      else Decidable.isFalse (by intro hc; cases hc; exact h rfl)
  | Except.error s, Except.error t =>
      if h : s = t then Decidable.isTrue (by rw [h])
      else Decidable.isFalse (by intro hc; cases hc; exact h rfl)
  | Except.ok _, Except.error _ => Decidable.isFalse (by intro hc; cases hc)
  | Except.error _, Except.ok _ => Decidable.isFalse (by intro hc; cases hc)

/-- Attributes of a Blur instance relevant to the claims: self.params and
self.filter (self.padding kept as well).  The constructor of the source
never assigns self.filter. -/
structure BlurState where
  params : Option FilterArg
  filterAttr : Option FilterArg
  padding : PadMode
deriving DecidableEq, Repr, Fintype

/-- Blur.__init__ (blur.py lines 471-478).  Two isinstance tests:
for a Parameter the first assigns self.params and the second re-wraps it;
for a plain Tensor only the second fires and reads the never-assigned
self.params, raising AttributeError; any other argument skips both
branches and the constructor completes without storing a filter. -/
def blur_init (arg : FilterArg) (padding : PadMode) : Except InitError BlurState :=
  let st0 : BlurState := { params := none, filterAttr := none, padding := padding }
  let st1 : BlurState :=
    if arg = FilterArg.parameter then { st0 with params := some FilterArg.parameter }
    else st0
  if arg = FilterArg.parameter ∨ arg = FilterArg.tensor then
    match st1.params with
    | some v => Except.ok { st1 with params := some v }
    | none => Except.error InitError.attributeError
  else Except.ok st1

/-- The attribute lookup performed first by Blur.A and Blur.A_adjoint
(blur.py lines 480-484): both read self.filter; on success A would return
conv(x, filter, padding) and A_adjoint conv_transpose(y, filter, padding). -/
def blur_A_filter (st : BlurState) : Except InitError FilterArg :=
  match st.filterAttr with
  | some f => Except.ok f
  | none => Except.error InitError.attributeError

/-- Downsampling.__init__ filter handling (blur.py lines 139-159).
Returned value: the stored self.params (none models params = None).
The elif chain hangs off the second isinstance test, so a plain Tensor
reads the never-assigned self.params and a non-Tensor argument falls
through to the None / preset / raise branches. -/
def downsampling_init (arg : FilterArg) : Except InitError (Option FilterArg) :=
  let p1 : Option (Option FilterArg) :=
    if arg = FilterArg.parameter then some (some FilterArg.parameter) else none
  if arg = FilterArg.parameter ∨ arg = FilterArg.tensor then
    match p1 with
    | some v => Except.ok v
    | none => Except.error InitError.attributeError
  else if arg = FilterArg.noFilter then Except.ok none
  else if arg = FilterArg.presetGaussian then Except.ok (some FilterArg.presetGaussian)
  else if arg = FilterArg.presetBilinear then Except.ok (some FilterArg.presetBilinear)
  else if arg = FilterArg.presetBicubic then Except.ok (some FilterArg.presetBicubic)
  else Except.error InitError.exceptionUnknownFilter

/-! ## define_zernike (generator/blur.py lines 347-513)

The 38 Zernike polynomials in Cartesian coordinates, indices 0..37 of the
returned list Z (Z has 38 entries; there is no entry with index 38). -/

/-- Squared radius helper of define_zernike. -/
def zr2 (x y : ℝ) : ℝ := x ^ 2 + y ^ 2

/-- The list Z built by define_zernike: 38 polynomial functions. -/
noncomputable def define_zernike : List (ℝ → ℝ → ℝ) :=
  [fun _ _ => 1,
   fun _ _ => 1,
   fun x _ => 2 * x,
   fun _ y => 2 * y,
   fun x y => Real.sqrt 3 * (2 * zr2 x y - 1),
   fun x y => 2 * Real.sqrt 6 * x * y,
   fun x y => Real.sqrt 6 * (x ^ 2 - y ^ 2),
   fun x y => Real.sqrt 8 * y * (3 * zr2 x y - 2),
   fun x y => Real.sqrt 8 * x * (3 * zr2 x y - 2),
   fun x y => Real.sqrt 8 * y * (3 * x ^ 2 - y ^ 2),
   fun x y => Real.sqrt 8 * x * (x ^ 2 - 3 * y ^ 2),
   fun x y => Real.sqrt 5 * (6 * zr2 x y ^ 2 - 6 * zr2 x y + 1),
   fun x y => Real.sqrt 10 * (x ^ 2 - y ^ 2) * (4 * zr2 x y - 3),
   fun x y => 2 * Real.sqrt 10 * x * y * (4 * zr2 x y - 3),
   fun x y => Real.sqrt 10 * (zr2 x y ^ 2 - 8 * x ^ 2 * y ^ 2),
   fun x y => 4 * Real.sqrt 10 * x * y * (x ^ 2 - y ^ 2),
   fun x y => Real.sqrt 12 * x * (10 * zr2 x y ^ 2 - 12 * zr2 x y + 3),
   fun x y => Real.sqrt 12 * y * (10 * zr2 x y ^ 2 - 12 * zr2 x y + 3),
   fun x y => Real.sqrt 12 * x * (x ^ 2 - 3 * y ^ 2) * (5 * zr2 x y - 4),
   fun x y => Real.sqrt 12 * y * (3 * x ^ 2 - y ^ 2) * (5 * zr2 x y - 4),
   fun x y => Real.sqrt 12 * x
     * (16 * x ^ 4 - 20 * x ^ 2 * zr2 x y + 5 * zr2 x y ^ 2),
   fun x y => Real.sqrt 12 * y
     * (16 * y ^ 4 - 20 * y ^ 2 * zr2 x y + 5 * zr2 x y ^ 2),
   fun x y => Real.sqrt 7
     * (20 * zr2 x y ^ 3 - 30 * zr2 x y ^ 2 + 12 * zr2 x y - 1),
   fun x y => 2 * Real.sqrt 14 * x * y
     * (15 * zr2 x y ^ 2 - 20 * zr2 x y + 6),
   fun x y => Real.sqrt 14 * (x ^ 2 - y ^ 2)
     * (15 * zr2 x y ^ 2 - 20 * zr2 x y + 6),
   fun x y => 4 * Real.sqrt 14 * x * y * (x ^ 2 - y ^ 2) * (6 * zr2 x y - 5),
   fun x y => Real.sqrt 14 * (8 * x ^ 4 - 8 * x ^ 2 * zr2 x y + zr2 x y ^ 2)
     * (6 * zr2 x y - 5),
   fun x y => Real.sqrt 14 * x * y
     * (32 * x ^ 4 - 32 * x ^ 2 * zr2 x y + 6 * zr2 x y ^ 2),
   fun x y => Real.sqrt 14 * (32 * x ^ 6 - 48 * x ^ 4 * zr2 x y
     + 18 * x ^ 2 * zr2 x y ^ 2 - zr2 x y ^ 3),
   fun x y => 4 * y * (35 * zr2 x y ^ 3 - 60 * zr2 x y ^ 2 + 30 * zr2 x y + 10),
   fun x y => 4 * x * (35 * zr2 x y ^ 3 - 60 * zr2 x y ^ 2 + 30 * zr2 x y + 10),
   fun x y => 4 * y * (3 * x ^ 2 - y ^ 2)
     * (21 * zr2 x y ^ 2 - 30 * zr2 x y + 10),
   fun x y => 4 * x * (x ^ 2 - 3 * y ^ 2)
     * (21 * zr2 x y ^ 2 - 30 * zr2 x y + 10),
   fun x y => 4 * (7 * zr2 x y - 6)
     * (4 * x ^ 2 * y * (x ^ 2 - y ^ 2) + y * (zr2 x y ^ 2 - 8 * x ^ 2 * y ^ 2)),
   fun x y => 4 * (7 * zr2 x y - 6)
     * (x * (zr2 x y ^ 2 - 8 * x ^ 2 * y ^ 2) - 4 * x * y ^ 2 * (x ^ 2 - y ^ 2)),
   fun x y => 8 * x ^ 2 * y * (3 * zr2 x y ^ 2 - 16 * x ^ 2 * y ^ 2)
     + 4 * y * (x ^ 2 - y ^ 2) * (zr2 x y ^ 2 - 16 * x ^ 2 * y ^ 2),
   fun x y => 4 * x * (x ^ 2 - y ^ 2) * (zr2 x y ^ 2 - 16 * x ^ 2 * y ^ 2)
     - 8 * x * y ^ 2 * (3 * zr2 x y ^ 2 - 16 * x ^ 2 * y ^ 2),
   fun x y => 3 * (70 * zr2 x y ^ 4 - 140 * zr2 x y ^ 3 + 90 * zr2 x y ^ 2
     - 20 * zr2 x y + 1)]

/-- The basis-building loop of DiffractionBlurGenerator.__init__
(lines 108-115): for each requested index, look the polynomial up in the
define_zernike list; an index outside 0..37 is an out-of-range list access
(IndexError).  The source iterates over the sorted index list; sorting
permutes but does not change which lookups happen, so the outcome is the
same. -/
noncomputable def buildZ : List ℕ → Except String (List (ℝ → ℝ → ℝ))
  | [] => Except.ok []
  | i :: rest =>
    match define_zernike.get? i with
    | some f => (buildZ rest).map (fun l => f :: l)
    | none => Except.error "IndexError: list index out of range"

/-- DiffractionBlurGenerator.__init__ validation (lines 98-115):
np.max of an empty index list raises; then the assert rejects an index
greater than 38; then the basis loop looks every index up in the
38-element list. -/
noncomputable def diffraction_init (list_param : List ℕ) :
    Except String (List (ℝ → ℝ → ℝ)) :=
  if list_param = [] then Except.error "ValueError: zero-size array reduction"
  else if 38 < list_param.foldr Nat.max 0 then
    Except.error "The Zernike polynomial index can not be exceed 38"
  else buildZ list_param

/-! ## Discrete Fourier transforms (torch.fft)

eC a N is the unit root exp(2*pi*I*a/N); torch fft2/ifft2 use the
unnormalized forward transform and the 1/(H*W)-normalized inverse. -/

/-- Unit root: exp(2*pi*I*a/N). -/
noncomputable def eC (a : ℤ) (N : ℕ) : ℂ :=
  Complex.exp (2 * Real.pi * Complex.I * a / N)

/-- torch.fft.fft2: unnormalized 2D discrete Fourier transform. -/
noncomputable def dft2 (H W : ℕ) (x : ℕ → ℕ → ℂ) (u v : ℕ) : ℂ :=
  ∑ n ∈ Finset.range H, ∑ m ∈ Finset.range W,
    x n m * eC (-(u * n)) H * eC (-(v * m)) W

/-- torch.fft.ifft2: normalized 2D inverse discrete Fourier transform. -/
noncomputable def idft2 (H W : ℕ) (X : ℕ → ℕ → ℂ) (n m : ℕ) : ℂ :=
  (1 / ((H : ℂ) * W)) * ∑ u ∈ Finset.range H, ∑ v ∈ Finset.range W,
    X u v * eC (u * n) H * eC (v * m) W

/-- torch.fft.rfft value formula: coefficient k of the 1D DFT of a
length-N sequence (rfft stores k = 0 .. N/2, with the same values as the
full transform). -/
noncomputable def dft1 (N : ℕ) (v : ℕ → ℂ) (k : ℕ) : ℂ :=
  ∑ t ∈ Finset.range N, v t * eC (-(k * t)) N

/-- torch.fft.irfft: real inverse of a one-sided length-L spectrum; the
output length is N = 2*(L-1) and the spectrum is extended by Hermitian
symmetry before the normalized inverse transform. -/
noncomputable def irfft (L : ℕ) (X : ℕ → ℂ) (t : ℕ) : ℝ :=
  ((1 / (2 * (L - 1) : ℕ) : ℂ) * ∑ k ∈ Finset.range (2 * (L - 1)),
    (if k ≤ L - 1 then X k else (starRingEnd ℂ) (X (2 * (L - 1) - k)))
      * eC (k * t) (2 * (L - 1))).re

/-- torch.sqrt on complex tensors: the principal square root. -/
noncomputable def csqrt (z : ℂ) : ℂ := z ^ ((1 : ℂ) / 2)

/-! ## filter_fft (blur.py lines 13-22) and the frequency-domain path -/

/-- The zero array with the kernel written at the top-left corner
(filt2[:, :, :h, :w] = filter). -/
noncomputable def filt2 (h w : ℕ) (k : ℕ → ℕ → ℚ) (i j : ℕ) : ℂ :=
  if i < h ∧ j < w then (k i j : ℂ) else 0

/-- torch.roll of the zero-embedded kernel by (-ph, -pw): the rolled array
at (t, s) is the original at ((t + ph) mod H, (s + pw) mod W). -/
noncomputable def filt2rolled (H W h w : ℕ) (k : ℕ → ℕ → ℚ) (t s : ℕ) : ℂ :=
  filt2 h w k ((t + padExtent h) % H) ((s + padExtent w) % W)

/-- filter_fft (real_fft=False branch): fft2 of the rolled zero-embedded
kernel. -/
noncomputable def filter_fft (H W h w : ℕ) (k : ℕ → ℕ → ℚ) (u v : ℕ) : ℂ :=
  dft2 H W (filt2rolled H W h w k) u v

/-- The frequency-domain path of claim C5: multiply the image spectrum
elementwise by filter_fft and inverse-transform. -/
noncomputable def fftConvPath (H W h w : ℕ) (x : ℕ → ℕ → ℂ) (k : ℕ → ℕ → ℚ)
    (n m : ℕ) : ℂ :=
  idft2 H W (fun u v => dft2 H W x u v * filter_fft H W h w k u v) n m

/-! ## MotionBlurGenerator (generator/blur.py lines 234-344) -/

/-- matern_kernel (lines 288-294): the covariance value at lag diff.
fraction = 5**0.5 * |diff| / l. -/
noncomputable def matern_kernel (sigma l diff : ℝ) : ℝ :=
  sigma ^ 2 * (1 + Real.sqrt 5 * |diff| / l + (Real.sqrt 5 * |diff| / l) ^ 2 / 3)
    * Real.exp (-(Real.sqrt 5 * |diff| / l))

/-- torch.linspace(lo, hi, n) at position t. -/
noncomputable def linspace (lo hi : ℝ) (n t : ℕ) : ℝ :=
  if n = 1 then lo else lo + t * ((hi - lo) / (n - 1 : ℕ))

/-- The length of the sliced correlated signal in f_matern (line 306):
torch.arange(self.n_steps // (2 * torch.pi)) has floor(n / (2*pi))
entries. -/
noncomputable def trajLen (n : ℕ) : ℕ := Nat.floor ((n : ℝ) / (2 * Real.pi))

/-- f_matern (lines 297-307): multiply the rfft of the white noise by the
square root of the rfft of the covariance row sampled on
linspace(-pi, pi, n), inverse-transform, and keep the first
trajLen n entries (the slice by torch.arange(n_steps // (2*pi))). -/
noncomputable def f_matern (n : ℕ) (sigma l : ℝ) (vec : ℕ → ℝ) (t : ℕ) : ℝ :=
  irfft (n / 2 + 1)
    (fun kk => dft1 n (fun u => (vec u : ℂ)) kk
      * csqrt (dft1 n
          (fun u => (matern_kernel sigma l (linspace (-Real.pi) Real.pi n u) : ℂ)) kk))
    t

/-- Subtracting the mean over the first L entries (step, lines 328-334). -/
noncomputable def demean (L : ℕ) (v : ℕ → ℝ) (t : ℕ) : ℝ :=
  v t - (∑ s ∈ Finset.range L, v s) / L

/-- One x- or y-coordinate sequence of the motion trajectory as built by
MotionBlurGenerator.step: the de-meaned slice of f_matern, of length
trajLen n. -/
noncomputable def motionTraj (n : ℕ) (sigma l : ℝ) (vec : ℕ → ℝ) (t : ℕ) : ℝ :=
  demean (trajLen n) (f_matern n sigma l vec) t

/-- Modelled from the spec: histogramdd (imported in the source from
deepinv.physics.functional, which is not part of this source tree).
Spec: bin the (x, y) point cloud into the target kernel's 2D grid over
[-1,1] x [-1,1] using a 2D histogram.  binIdx sends an in-range coordinate
to its bin (the last bin is closed on the right). -/
noncomputable def binIdx (K : ℕ) (v : ℝ) : ℕ :=
  min (Nat.floor ((v + 1) / (2 / (K : ℝ)))) (K - 1)

/-- Modelled from the spec: the count of trajectory points falling in bin
(i, j) of the K1 x K2 grid over [-1,1] x [-1,1]. -/
noncomputable def histogramdd (K1 K2 L : ℕ) (pts : ℕ → ℝ × ℝ) (i j : ℕ) : ℝ :=
  ∑ t ∈ Finset.range L,
    if (-1 ≤ (pts t).1 ∧ (pts t).1 ≤ 1 ∧ -1 ≤ (pts t).2 ∧ (pts t).2 ≤ 1)
        ∧ binIdx K1 (pts t).1 = i ∧ binIdx K2 (pts t).2 = j then (1 : ℝ) else 0

/-- The rasterization part of MotionBlurGenerator.step (lines 326-344) for
one batch element, taking the two sampled coordinate sequences: de-mean
both, histogram the point cloud, and normalize by the total mass. -/
noncomputable def motion_step (K1 K2 n : ℕ) (fx fy : ℕ → ℝ) (i j : ℕ) : ℝ :=
  histogramdd K1 K2 (trajLen n)
      (fun t => (demean (trajLen n) fx t, demean (trajLen n) fy t)) i j
    / ∑ a ∈ Finset.range K1, ∑ b ∈ Finset.range K2,
        histogramdd K1 K2 (trajLen n)
          (fun t => (demean (trajLen n) fx t, demean (trajLen n) fy t)) a b

/-! ## DiffractionBlurGenerator.step (generator/blur.py lines 122-156) -/

/-- bump_function (lines 532-560). -/
noncomputable def bump_function (a b x : ℝ) : ℝ :=
  if |x| ≤ a then 1
  else if |x| < a + b then
    Real.exp (-1 / (1 - ((|x| - a) / b) ^ 2)) / Real.exp (-1)
  else 0

/-- generate_coeff (lines 152-156): coefficients uniform in [-A, A] from
uniform draws in [0, 1]. -/
noncomputable def generate_coeff (A : ℝ) (rand : ℕ → ℝ) (kk : ℕ) : ℝ :=
  2 * (rand kk - 1 / 2) * A

/-- The pupil-plane radius rho = cart2pol(XX, YY) with
XX[i][j] = linspace(-0.5, 0.5, P)[i] / fc and YY[i][j] the same in j. -/
noncomputable def pupilRho (P : ℕ) (fc : ℝ) (i j : ℕ) : ℝ :=
  Real.sqrt ((linspace (-(1 / 2)) (1 / 2) P i / fc) ^ 2
    + (linspace (-(1 / 2)) (1 / 2) P j / fc) ^ 2)

/-- The phase pupil pupil1 = Z @ coeff over the basis list. -/
noncomputable def pupilPhase (Zs : List (ℝ → ℝ → ℝ)) (coeff : ℕ → ℝ)
    (P : ℕ) (fc : ℝ) (i j : ℕ) : ℝ :=
  ∑ kk ∈ Finset.range Zs.length,
    coeff kk * (Zs.getD kk (fun _ _ => 0))
      (linspace (-(1 / 2)) (1 / 2) P i / fc) (linspace (-(1 / 2)) (1 / 2) P j / fc)

/-- pupil3 = exp(-2*pi*I*pupil1) * bump_function(rho, 1.0) (lines 137-139). -/
noncomputable def pupil3 (Zs : List (ℝ → ℝ → ℝ)) (coeff : ℕ → ℝ)
    (P : ℕ) (fc : ℝ) (i j : ℕ) : ℂ :=
  Complex.exp (-2 * Real.pi * Complex.I * (pupilPhase Zs coeff P fc i j : ℝ))
    * (bump_function 1 1 (pupilRho P fc i j) : ℝ)

/-- torch.fft.fftshift on one axis of length P. -/
def fftshiftIdx (P i : ℕ) : ℕ := (i + P - P / 2) % P

/-- torch.fft.ifftshift on one axis of length P. -/
def ifftshiftIdx (P i : ℕ) : ℕ := (i + P / 2) % P

/-- psf2 = |ifftshift(fft2(fftshift(pupil3)))|^2 (lines 140-141). -/
noncomputable def diffractionIntensity (Zs : List (ℝ → ℝ → ℝ)) (coeff : ℕ → ℝ)
    (P : ℕ) (fc : ℝ) (i j : ℕ) : ℝ :=
  (dft2 P P (fun a b => pupil3 Zs coeff P fc (fftshiftIdx P a) (fftshiftIdx P b))
      (ifftshiftIdx P i) (ifftshiftIdx P j)).re ^ 2
    + (dft2 P P (fun a b => pupil3 Zs coeff P fc (fftshiftIdx P a) (fftshiftIdx P b))
      (ifftshiftIdx P i) (ifftshiftIdx P j)).im ^ 2

/-- The central crop psf3 (lines 143-147): pad_pre = ceil((P-K)/2). -/
noncomputable def diffractionCrop (Zs : List (ℝ → ℝ → ℝ)) (coeff : ℕ → ℝ)
    (P K1 K2 : ℕ) (fc : ℝ) (i j : ℕ) : ℝ :=
  diffractionIntensity Zs coeff P fc ((P - K1 + 1) / 2 + i) ((P - K2 + 1) / 2 + j)

/-- The normalized PSF returned by DiffractionBlurGenerator.step
(line 148): psf = psf3 / sum(psf3). -/
noncomputable def diffraction_step (Zs : List (ℝ → ℝ → ℝ)) (coeff : ℕ → ℝ)
    (P K1 K2 : ℕ) (fc : ℝ) (i j : ℕ) : ℝ :=
  diffractionCrop Zs coeff P K1 K2 fc i j
    / ∑ a ∈ Finset.range K1, ∑ b ∈ Finset.range K2,
        diffractionCrop Zs coeff P K1 K2 fc a b

/-- 3x3 delta image at (0,0) for the C5 counterexample. -/
def xC5q : ℕ → ℕ → ℚ := fun i j => if i = 0 ∧ j = 0 then 1 else 0

/-- 3x3 asymmetric kernel (delta at (0,0)) for the C5 counterexample. -/
def kC5q : ℕ → ℕ → ℚ := fun d e => if d = 0 ∧ e = 0 then 1 else 0

/-- Complex cast of xC5q. -/
noncomputable def xC5c : ℕ → ℕ → ℂ := fun i j => ((xC5q i j : ℚ) : ℂ)

/-! ## Downsampling (blur.py lines 87-215), per batch/channel plane -/

/-- Downsampling.A_adjoint (lines 176-181): scatter y into a zero canvas
at stride factor, then transpose-convolve with the anti-alias filter. -/
def downsampling_A_adjoint (m : PadMode) (f H W hk wk : ℕ)
    (kern : ℕ → ℕ → ℚ) (y : ℕ → ℕ → ℚ) : ℕ → ℕ → ℚ :=
  convTPlane m H W hk wk kern
    (fun i j => if i % f = 0 ∧ j % f = 0 then y (i / f) (j / f) else 0)

/-- The mean over the factor x factor stacked blocks produced by splits
(lines 195-205): chunk along the height into f blocks, stack, chunk along
the width, concatenate; the concatenation index q packs the height-chunk
index q % f and the width-chunk index q / f. -/
noncomputable def splitsMean (f H W : ℕ) (A : ℕ → ℕ → ℂ) (u v : ℕ) : ℂ :=
  (1 / ((f : ℂ) * f)) * ∑ q ∈ Finset.range (f * f),
    A ((q % f) * (H / f) + u) ((q / f) * (W / f) + v)

/-- The same block mean written directly as a double sum over the
factor x factor grid of blocks, as the spec describes it. -/
noncomputable def specBlockMean (f H W : ℕ) (A : ℕ → ℕ → ℂ) (u v : ℕ) : ℂ :=
  (1 / ((f : ℂ) * f)) * ∑ a ∈ Finset.range f, ∑ b ∈ Finset.range f,
    A (a * (H / f) + u) (b * (W / f) + v)

/-- The closed-form branch of Downsampling.prox_l2 (lines 191-213),
translated step by step: z_hat = A_adjoint(y) + (1/gamma) z; Fz_hat =
fft2(z_hat); top = mean(splits(Fh * Fz_hat)); below = mean(splits(Fh2)) +
1/gamma; rc = Fhc * (top/below) tiled factor x factor; r = re(ifft2(rc));
return (z_hat - r) * gamma.  Fh = filter_fft(params, img_size,
real_fft=False) and Fh2 = conj(Fh) * Fh as precomputed at construction
(lines 161-168). -/
noncomputable def prox_l2_closed (f H W hk wk : ℕ) (kern : ℕ → ℕ → ℚ)
    (gamma : ℚ) (z y : ℕ → ℕ → ℚ) (n m : ℕ) : ℝ :=
  let z_hat : ℕ → ℕ → ℚ := fun i j =>
    downsampling_A_adjoint PadMode.circular f H W hk wk kern y i j
      + 1 / gamma * z i j
  let Fh : ℕ → ℕ → ℂ := filter_fft H W hk wk kern
  let Fhc : ℕ → ℕ → ℂ := fun u v => (starRingEnd ℂ) (Fh u v)
  let Fh2 : ℕ → ℕ → ℂ := fun u v => Fhc u v * Fh u v
  let Fz : ℕ → ℕ → ℂ := dft2 H W (fun i j => ((z_hat i j : ℚ) : ℂ))
  let top : ℕ → ℕ → ℂ := splitsMean f H W (fun a b => Fh a b * Fz a b)
  let below : ℕ → ℕ → ℂ := fun u v =>
    splitsMean f H W Fh2 u v + ((1 / gamma : ℚ) : ℂ)
  let rc : ℕ → ℕ → ℂ := fun u v =>
    Fhc u v * (top (u % (H / f)) (v % (W / f)) / below (u % (H / f)) (v % (W / f)))
  let r : ℕ → ℕ → ℝ := fun a b => (idft2 H W rc a b).re
  (((z_hat n m : ℚ) : ℝ) - r n m) * ((gamma : ℚ) : ℝ)

/-- The spec's description of the same closed form, with the aliasing
block average written as the explicit factor x factor double sum. -/
noncomputable def prox_l2_spec (f H W hk wk : ℕ) (kern : ℕ → ℕ → ℚ)
    (gamma : ℚ) (z y : ℕ → ℕ → ℚ) (n m : ℕ) : ℝ :=
  let z_hat : ℕ → ℕ → ℚ := fun i j =>
    downsampling_A_adjoint PadMode.circular f H W hk wk kern y i j
      + 1 / gamma * z i j
  let Fh : ℕ → ℕ → ℂ := filter_fft H W hk wk kern
  let Fhc : ℕ → ℕ → ℂ := fun u v => (starRingEnd ℂ) (Fh u v)
  let Fh2 : ℕ → ℕ → ℂ := fun u v => Fhc u v * Fh u v
  let Fz : ℕ → ℕ → ℂ := dft2 H W (fun i j => ((z_hat i j : ℚ) : ℂ))
  let top : ℕ → ℕ → ℂ := specBlockMean f H W (fun a b => Fh a b * Fz a b)
  let below : ℕ → ℕ → ℂ := fun u v =>
    specBlockMean f H W Fh2 u v + ((1 / gamma : ℚ) : ℂ)
  let rc : ℕ → ℕ → ℂ := fun u v =>
    Fhc u v * (top (u % (H / f)) (v % (W / f)) / below (u % (H / f)) (v % (W / f)))
  let r : ℕ → ℕ → ℝ := fun a b => (idft2 H W rc a b).re
  (((z_hat n m : ℚ) : ℝ) - r n m) * ((gamma : ℚ) : ℝ)

/-- Downsampling.prox_l2 (lines 183-215): the closed form runs only when
use_fft is set and the padding is circular; otherwise the call delegates
to the iterative least-squares fallback of the LinearPhysics base class,
here an explicit parameter because that class is an external collaborator. -/
noncomputable def prox_l2
    (baseProx : (ℕ → ℕ → ℚ) → (ℕ → ℕ → ℚ) → ℚ → ℕ → ℕ → ℝ)
    (use_fft : Bool) (pad : PadMode) (f H W hk wk : ℕ) (kern : ℕ → ℕ → ℚ)
    (gamma : ℚ) (z y : ℕ → ℕ → ℚ) (n m : ℕ) : ℝ :=
  if use_fft = true ∧ pad = PadMode.circular then
    prox_l2_closed f H W hk wk kern gamma z y n m
  else baseProx z y gamma n m

/-! ############################################################
    Theorems: sum bookkeeping
    ############################################################ -/

/-- Splitting a range sum into three consecutive chunks. -/
theorem sum_range_split3 (a b c : ℕ) (f : ℕ → ℚ) :
    ∑ i ∈ Finset.range (a + b + c), f i
      = (∑ i ∈ Finset.range a, f i) + (∑ i ∈ Finset.range b, f (a + i))
        + ∑ i ∈ Finset.range c, f (a + b + i) := by
  have h1 : ∑ i ∈ Finset.Ico 0 (a + b), f i
      = (∑ i ∈ Finset.Ico 0 a, f i) + ∑ i ∈ Finset.Ico a (a + b), f i :=
    (Finset.sum_Ico_consecutive f (Nat.zero_le a) (Nat.le_add_right a b)).symm
  have h2 : ∑ i ∈ Finset.Ico 0 (a + b + c), f i
      = (∑ i ∈ Finset.Ico 0 (a + b), f i) + ∑ i ∈ Finset.Ico (a + b) (a + b + c), f i :=
    (Finset.sum_Ico_consecutive f (Nat.zero_le (a + b)) (Nat.le_add_right (a + b) c)).symm
  have p1 : ∑ i ∈ Finset.Ico 0 a, f i = ∑ i ∈ Finset.range a, f i := by
    rw [Finset.range_eq_Ico]
  have p2 : ∑ i ∈ Finset.Ico a (a + b), f i = ∑ i ∈ Finset.range b, f (a + i) := by
    rw [Finset.sum_Ico_eq_sum_range]
    have e1 : a + b - a = b := by omega
    rw [e1]
  have p3 : ∑ i ∈ Finset.Ico (a + b) (a + b + c), f i
      = ∑ i ∈ Finset.range c, f (a + b + i) := by
    rw [Finset.sum_Ico_eq_sum_range]
    have e2 : a + b + c - (a + b) = c := by omega
    rw [e2]
  rw [Finset.range_eq_Ico, h2, h1, p1, p2, p3, ← Finset.range_eq_Ico]

/-- Window collapse: summing an indicator-restricted term over a large
range equals summing over the window. -/
theorem sum_ind_window (N a b : ℕ) (hab : a ≤ b) (hb : b ≤ N) (g : ℕ → ℚ) :
    ∑ n ∈ Finset.range N, indQ (a ≤ n ∧ n < b) * g n
      = ∑ j ∈ Finset.range (b - a), g (a + j) := by
  have hind : ∀ n, indQ (a ≤ n ∧ n < b) * g n = if a ≤ n ∧ n < b then g n else 0 := by
    intro n
    by_cases h : a ≤ n ∧ n < b <;> simp [indQ, h]
  rw [Finset.sum_congr rfl (fun n _ => hind n), ← Finset.sum_filter]
  have hs : (Finset.range N).filter (fun n => a ≤ n ∧ n < b) = Finset.Ico a b := by
    ext n
    simp only [Finset.mem_filter, Finset.mem_range, Finset.mem_Ico]
    omega
  rw [hs, Finset.sum_Ico_eq_sum_range]

/-- Guarded shift: the transpose-convolution guard collapses a large sum
to a shifted small sum. -/
theorem sum_ind_shift (N a L : ℕ) (h : a + L ≤ N) (g : ℕ → ℚ) :
    ∑ n ∈ Finset.range N, indQ (a ≤ n ∧ n - a < L) * g n
      = ∑ j ∈ Finset.range L, g (j + a) := by
  have hcong : ∀ n, indQ (a ≤ n ∧ n - a < L) = indQ (a ≤ n ∧ n < a + L) := by
    intro n
    by_cases hc : a ≤ n ∧ n - a < L
    · rw [indQ, if_pos hc, indQ, if_pos (by omega)]
    · rw [indQ, if_neg hc, indQ, if_neg (by omega)]
  rw [Finset.sum_congr rfl (fun n _ => by rw [hcong n]),
    sum_ind_window N a (a + L) (by omega) (by omega) g]
  have hL : a + L - a = L := by omega
  rw [hL]
  exact Finset.sum_congr rfl (fun j _ => by rw [Nat.add_comm])

/-- Prefix collapse: indicator n < p. -/
theorem sum_ind_front (N p : ℕ) (hp : p ≤ N) (g : ℕ → ℚ) :
    ∑ n ∈ Finset.range N, indQ (n < p) * g n = ∑ n ∈ Finset.range p, g n := by
  have hcong : ∀ n, indQ (n < p) = indQ (0 ≤ n ∧ n < p) := by
    intro n
    by_cases hc : n < p
    · rw [indQ, if_pos hc, indQ, if_pos (by omega)]
    · rw [indQ, if_neg hc, indQ, if_neg (by omega)]
  rw [Finset.sum_congr rfl (fun n _ => by rw [hcong n]),
    sum_ind_window N 0 p (by omega) hp g]
  simp

/-- Suffix collapse: indicator a <= n over range N. -/
theorem sum_ind_suffix (N a : ℕ) (ha : a ≤ N) (g : ℕ → ℚ) :
    ∑ n ∈ Finset.range N, indQ (a ≤ n) * g n
      = ∑ j ∈ Finset.range (N - a), g (a + j) := by
  have hcong : ∀ n, n ∈ Finset.range N → indQ (a ≤ n) * g n = indQ (a ≤ n ∧ n < N) * g n := by
    intro n hn
    simp only [Finset.mem_range] at hn
    by_cases hc : a ≤ n
    · rw [indQ, if_pos hc, indQ, if_pos (by omega)]
    · rw [indQ, if_neg hc, indQ, if_neg (by omega)]
  rw [Finset.sum_congr rfl hcong, sum_ind_window N a N ha (le_refl N) g]

/-- Single-point collapse: indicator n = c over range N. -/
theorem sum_ind_single (N c : ℕ) (hc : c < N) (g : ℕ → ℚ) :
    ∑ n ∈ Finset.range N, indQ (n = c) * g n = g c := by
  have hind : ∀ n, indQ (n = c) * g n = if n = c then g n else 0 := by
    intro n
    by_cases h : n = c <;> simp [indQ, h]
  rw [Finset.sum_congr rfl (fun n _ => hind n)]
  rw [Finset.sum_ite_eq' (Finset.range N) c g]
  rw [if_pos (Finset.mem_range.mpr hc)]

/-- Rotating the outermost index of a triple sum to the inside. -/
theorem sum_comm3 (s t u : Finset ℕ) (F : ℕ → ℕ → ℕ → ℚ) :
    ∑ x ∈ s, ∑ y ∈ t, ∑ z ∈ u, F x y z
      = ∑ y ∈ t, ∑ z ∈ u, ∑ x ∈ s, F x y z := by
  rw [Finset.sum_comm]
  exact Finset.sum_congr rfl (fun y _ => Finset.sum_comm)

/-! ############################################################
    Theorems: adjointness of the convolution engine (claim C1)
    ############################################################ -/

/-- Adjointness of valid cross-correlation and full transpose convolution
with matching kernel: the inner product of cc(xp) with y over the valid
output range equals the inner product of xp with ct(y) over the full
range. -/
theorem dot_cc_ct (Hp Wp h w : ℕ) (hh1 : 1 ≤ h) (hh : h ≤ Hp)
    (hw1 : 1 ≤ w) (hw : w ≤ Wp) (k xp y : ℕ → ℕ → ℚ) :
    dot2 (Hp + 1 - h) (Wp + 1 - w) (cc h w k xp) y
      = dot2 Hp Wp xp (ct (Hp + 1 - h) (Wp + 1 - w) h w k y) := by
  have hL : dot2 (Hp + 1 - h) (Wp + 1 - w) (cc h w k xp) y
      = ∑ d ∈ Finset.range h, ∑ e ∈ Finset.range w,
          ∑ i ∈ Finset.range (Hp + 1 - h), ∑ j ∈ Finset.range (Wp + 1 - w),
            k d e * xp (i + d) (j + e) * y i j := by
    rw [dot2]
    have e1 : ∀ i j, cc h w k xp i j * y i j
        = ∑ d ∈ Finset.range h, ∑ e ∈ Finset.range w,
            k d e * xp (i + d) (j + e) * y i j := by
      intro i j
      rw [cc, Finset.sum_mul]
      exact Finset.sum_congr rfl (fun d _ => by rw [Finset.sum_mul])
    rw [Finset.sum_congr rfl
      (fun i _ => Finset.sum_congr rfl (fun j _ => e1 i j))]
    rw [Finset.sum_congr rfl (fun i _ => sum_comm3 _ _ _ _), sum_comm3]
  have hR : dot2 Hp Wp xp (ct (Hp + 1 - h) (Wp + 1 - w) h w k y)
      = ∑ d ∈ Finset.range h, ∑ e ∈ Finset.range w,
          ∑ n ∈ Finset.range Hp, indQ (d ≤ n ∧ n - d < Hp + 1 - h)
            * ∑ m ∈ Finset.range Wp, indQ (e ≤ m ∧ m - e < Wp + 1 - w)
              * (k d e * xp n m * y (n - d) (m - e)) := by
    rw [dot2]
    have e1 : ∀ n m, xp n m * ct (Hp + 1 - h) (Wp + 1 - w) h w k y n m
        = ∑ d ∈ Finset.range h, ∑ e ∈ Finset.range w,
            indQ (d ≤ n ∧ n - d < Hp + 1 - h)
              * (indQ (e ≤ m ∧ m - e < Wp + 1 - w)
                * (k d e * xp n m * y (n - d) (m - e))) := by
      intro n m
      rw [ct, Finset.mul_sum]
      refine Finset.sum_congr rfl (fun d _ => ?_)
      rw [Finset.mul_sum]
      refine Finset.sum_congr rfl (fun e _ => ?_)
      ring
    rw [Finset.sum_congr rfl
      (fun n _ => Finset.sum_congr rfl (fun m _ => e1 n m))]
    rw [Finset.sum_congr rfl (fun n _ => sum_comm3 _ _ _ _), sum_comm3]
    refine Finset.sum_congr rfl (fun d _ => Finset.sum_congr rfl (fun e _ => ?_))
    refine Finset.sum_congr rfl (fun n _ => ?_)
    rw [Finset.mul_sum]
  rw [hL, hR]
  refine Finset.sum_congr rfl (fun d hd => Finset.sum_congr rfl (fun e he => ?_))
  simp only [Finset.mem_range] at hd he
  rw [sum_ind_shift Hp d (Hp + 1 - h) (by omega)
    (fun n => ∑ m ∈ Finset.range Wp, indQ (e ≤ m ∧ m - e < Wp + 1 - w)
      * (k d e * xp n m * y (n - d) (m - e)))]
  refine Finset.sum_congr rfl (fun i hi => ?_)
  rw [sum_ind_shift Wp e (Wp + 1 - w) (by omega)
    (fun m => k d e * xp (i + d) m * y (i + d - d) (m - e))]
  refine Finset.sum_congr rfl (fun j hj => ?_)
  have r1 : i + d - d = i := by omega
  have r2 : j + e - e = j := by omega
  rw [r1, r2]

/-- 1D adjointness of circular padding and the circular boundary fold. -/
theorem padfold1_circular (H p : ℕ) (hp : p ≤ H) (hH : 1 ≤ H) (x z : ℕ → ℚ) :
    ∑ i ∈ Finset.range (p + H + p), x (padIdx PadMode.circular H p i) * z i
      = ∑ n ∈ Finset.range H, x n * fold1c H p z n := by
  rw [sum_range_split3 p H p]
  have r1 : ∀ i, i < p →
      x (padIdx PadMode.circular H p i) * z i = x (H - p + i) * z i := by
    intro i hi
    have hidx : padIdx PadMode.circular H p i = H - p + i := by
      simp only [padIdx]
      have hlt : i + H - p < H := by omega
      rw [Nat.mod_eq_of_lt hlt]
      omega
    rw [hidx]
  have r2 : ∀ i, i < H →
      x (padIdx PadMode.circular H p (p + i)) * z (p + i) = x i * z (p + i) := by
    intro i hi
    have hidx : padIdx PadMode.circular H p (p + i) = i := by
      simp only [padIdx]
      have e : p + i + H - p = i + H := by omega
      rw [e, Nat.add_mod_right, Nat.mod_eq_of_lt hi]
    rw [hidx]
  have r3 : ∀ i, i < p →
      x (padIdx PadMode.circular H p (p + H + i)) * z (p + H + i)
        = x i * z (p + H + i) := by
    intro i hi
    have hidx : padIdx PadMode.circular H p (p + H + i) = i := by
      simp only [padIdx]
      have e : p + H + i + H - p = i + H * 2 := by omega
      rw [e, Nat.add_mul_mod_self_left, Nat.mod_eq_of_lt (by omega)]
    rw [hidx]
  have hfold : ∑ n ∈ Finset.range H, x n * fold1c H p z n
      = (∑ n ∈ Finset.range H, x n * z (n + p))
        + (∑ n ∈ Finset.range p, x n * z (H + p + n))
        + ∑ j ∈ Finset.range p, x (H - p + j) * z j := by
    have expand : ∀ n, x n * fold1c H p z n
        = x n * z (n + p) + indQ (n < p) * (x n * z (H + p + n))
          + indQ (H - p ≤ n) * (x n * z (n - (H - p))) := by
      intro n
      rw [fold1c]
      ring
    rw [Finset.sum_congr rfl (fun n _ => expand n), Finset.sum_add_distrib,
      Finset.sum_add_distrib]
    rw [sum_ind_front H p hp, sum_ind_suffix H (H - p) (by omega)]
    have eL : H - (H - p) = p := by omega
    rw [eL]
    congr 1
    refine Finset.sum_congr rfl (fun j hj => ?_)
    have e : H - p + j - (H - p) = j := by omega
    rw [e]
  have hR1 : ∑ i ∈ Finset.range p, x (padIdx PadMode.circular H p i) * z i
      = ∑ j ∈ Finset.range p, x (H - p + j) * z j :=
    Finset.sum_congr rfl (fun i hi => r1 i (Finset.mem_range.mp hi))
  have hR2 : ∑ i ∈ Finset.range H,
      x (padIdx PadMode.circular H p (p + i)) * z (p + i)
        = ∑ n ∈ Finset.range H, x n * z (n + p) :=
    Finset.sum_congr rfl (fun i hi => by
      rw [r2 i (Finset.mem_range.mp hi), Nat.add_comm p i])
  have hR3 : ∑ i ∈ Finset.range p,
      x (padIdx PadMode.circular H p (p + H + i)) * z (p + H + i)
        = ∑ n ∈ Finset.range p, x n * z (H + p + n) :=
    Finset.sum_congr rfl (fun i hi => by
      rw [r3 i (Finset.mem_range.mp hi)]
      have e : p + H + i = H + p + i := by omega
      rw [e])
  rw [hR1, hR2, hR3, hfold]
  ring

/-- 1D adjointness of reflect padding and the reflect boundary fold. -/
theorem padfold1_reflect (H p : ℕ) (hp : p + 1 ≤ H) (x z : ℕ → ℚ) :
    ∑ i ∈ Finset.range (p + H + p), x (padIdx PadMode.reflect H p i) * z i
      = ∑ n ∈ Finset.range H, x n * fold1r H p z n := by
  rw [sum_range_split3 p H p]
  have hR1 : ∑ i ∈ Finset.range p, x (padIdx PadMode.reflect H p i) * z i
      = ∑ j ∈ Finset.range p, x (1 + j) * z (p - (1 + j)) := by
    rw [← Finset.sum_range_reflect (fun i => x (padIdx PadMode.reflect H p i) * z i) p]
    refine Finset.sum_congr rfl (fun j hj => ?_)
    simp only [Finset.mem_range] at hj
    have hidx : padIdx PadMode.reflect H p (p - 1 - j) = 1 + j := by
      simp only [padIdx]
      rw [if_pos (by omega)]
      omega
    rw [hidx]
    have ez : p - 1 - j = p - (1 + j) := by omega
    rw [ez]
  have hR2 : ∑ i ∈ Finset.range H,
      x (padIdx PadMode.reflect H p (p + i)) * z (p + i)
        = ∑ n ∈ Finset.range H, x n * z (n + p) := by
    refine Finset.sum_congr rfl (fun i hi => ?_)
    simp only [Finset.mem_range] at hi
    have hidx : padIdx PadMode.reflect H p (p + i) = i := by
      simp only [padIdx]
      rw [if_neg (by omega), if_pos (by omega)]
      omega
    rw [hidx, Nat.add_comm p i]
  have hR3 : ∑ i ∈ Finset.range p,
      x (padIdx PadMode.reflect H p (p + H + i)) * z (p + H + i)
        = ∑ j ∈ Finset.range p, x (H - 1 - p + j) * z (2 * H + p - 2 - (H - 1 - p + j)) := by
    rw [← Finset.sum_range_reflect
      (fun i => x (padIdx PadMode.reflect H p (p + H + i)) * z (p + H + i)) p]
    refine Finset.sum_congr rfl (fun j hj => ?_)
    simp only [Finset.mem_range] at hj
    have hidx : padIdx PadMode.reflect H p (p + H + (p - 1 - j)) = H - 1 - p + j := by
      simp only [padIdx]
      rw [if_neg (by omega), if_neg (by omega)]
      omega
    rw [hidx]
    have ez : p + H + (p - 1 - j) = 2 * H + p - 2 - (H - 1 - p + j) := by omega
    rw [ez]
  have hfold : ∑ n ∈ Finset.range H, x n * fold1r H p z n
      = (∑ n ∈ Finset.range H, x n * z (n + p))
        + (∑ j ∈ Finset.range p, x (1 + j) * z (p - (1 + j)))
        + ∑ j ∈ Finset.range p, x (H - 1 - p + j) * z (2 * H + p - 2 - (H - 1 - p + j)) := by
    have expand : ∀ n, x n * fold1r H p z n
        = x n * z (n + p) + indQ (1 ≤ n ∧ n < 1 + p) * (x n * z (p - n))
          + indQ (H - 1 - p ≤ n ∧ n < H - 1) * (x n * z (2 * H + p - 2 - n)) := by
      intro n
      rw [fold1r]
      ring
    rw [Finset.sum_congr rfl (fun n _ => expand n), Finset.sum_add_distrib,
      Finset.sum_add_distrib]
    rw [sum_ind_window H 1 (1 + p) (by omega) (by omega),
      sum_ind_window H (H - 1 - p) (H - 1) (by omega) (by omega)]
    have e1 : 1 + p - 1 = p := by omega
    have e2 : H - 1 - (H - 1 - p) = p := by omega
    rw [e1, e2]
  rw [hR1, hR2, hR3, hfold]
  ring

/-- 1D adjointness of replicate padding and the replicate boundary fold. -/
theorem padfold1_replicate (H p : ℕ) (hH : 1 ≤ H) (x z : ℕ → ℚ) :
    ∑ i ∈ Finset.range (p + H + p), x (padIdx PadMode.replicate H p i) * z i
      = ∑ n ∈ Finset.range H, x n * fold1p H p z n := by
  rw [sum_range_split3 p H p]
  have hR1 : ∑ i ∈ Finset.range p, x (padIdx PadMode.replicate H p i) * z i
      = x 0 * ∑ i ∈ Finset.range p, z i := by
    rw [Finset.mul_sum]
    refine Finset.sum_congr rfl (fun i hi => ?_)
    simp only [Finset.mem_range] at hi
    simp only [padIdx]
    rw [if_pos hi]
  have hR2 : ∑ i ∈ Finset.range H,
      x (padIdx PadMode.replicate H p (p + i)) * z (p + i)
        = ∑ n ∈ Finset.range H, x n * z (n + p) := by
    refine Finset.sum_congr rfl (fun i hi => ?_)
    simp only [Finset.mem_range] at hi
    have hidx : padIdx PadMode.replicate H p (p + i) = i := by
      simp only [padIdx]
      rw [if_neg (by omega), if_pos (by omega)]
      omega
    rw [hidx, Nat.add_comm p i]
  have hR3 : ∑ i ∈ Finset.range p,
      x (padIdx PadMode.replicate H p (p + H + i)) * z (p + H + i)
        = x (H - 1) * ∑ i ∈ Finset.range p, z (H + p + i) := by
    rw [Finset.mul_sum]
    refine Finset.sum_congr rfl (fun i hi => ?_)
    simp only [Finset.mem_range] at hi
    have hidx : padIdx PadMode.replicate H p (p + H + i) = H - 1 := by
      simp only [padIdx]
      rw [if_neg (by omega), if_neg (by omega)]
    rw [hidx]
    have ez : p + H + i = H + p + i := by omega
    rw [ez]
  have hfold : ∑ n ∈ Finset.range H, x n * fold1p H p z n
      = (∑ n ∈ Finset.range H, x n * z (n + p))
        + x 0 * (∑ i ∈ Finset.range p, z i)
        + x (H - 1) * ∑ i ∈ Finset.range p, z (H + p + i) := by
    have expand : ∀ n, x n * fold1p H p z n
        = x n * z (n + p) + indQ (n = 0) * (x n * (∑ i ∈ Finset.range p, z i))
          + indQ (n = H - 1) * (x n * ∑ i ∈ Finset.range p, z (H + p + i)) := by
      intro n
      rw [fold1p]
      ring
    rw [Finset.sum_congr rfl (fun n _ => expand n), Finset.sum_add_distrib,
      Finset.sum_add_distrib]
    rw [sum_ind_single H 0 (by omega), sum_ind_single H (H - 1) (by omega)]
  rw [hR1, hR2, hR3, hfold]
  ring

/-- The 2D circular fold is the row fold composed with the column fold. -/
theorem fold2c_comp (Ho Wo p q : ℕ) (z : ℕ → ℕ → ℚ) (n m : ℕ) :
    fold2c Ho Wo p q z n m
      = fold1c Ho p (fun i => fold1c Wo q (z i) m) n := by
  simp only [fold2c, fold1c]
  ring

/-- The 2D reflect fold is the row fold composed with the column fold. -/
theorem fold2r_comp (Ho Wo p q : ℕ) (z : ℕ → ℕ → ℚ) (n m : ℕ) :
    fold2r Ho Wo p q z n m
      = fold1r Ho p (fun i => fold1r Wo q (z i) m) n := by
  simp only [fold2r, fold1r]
  ring

/-- The 2D replicate fold is the row fold composed with the column fold. -/
theorem fold2p_comp (Ho Wo p q : ℕ) (z : ℕ → ℕ → ℚ) (n m : ℕ) :
    fold2p Ho Wo p q z n m
      = fold1p Ho p (fun i => fold1p Wo q (z i) m) n := by
  simp only [fold2p, fold1p, Finset.sum_add_distrib, ← Finset.mul_sum]
  ring

/-- dot2 only looks at in-range values (left argument). -/
theorem dot2_congr_left (H W : ℕ) (f f2 g : ℕ → ℕ → ℚ)
    (h : ∀ i, i < H → ∀ j, j < W → f i j = f2 i j) :
    dot2 H W f g = dot2 H W f2 g := by
  refine Finset.sum_congr rfl (fun i hi => Finset.sum_congr rfl (fun j hj => ?_))
  rw [h i (Finset.mem_range.mp hi) j (Finset.mem_range.mp hj)]

/-- dot2 only looks at in-range values (right argument). -/
theorem dot2_congr_right (H W : ℕ) (f g g2 : ℕ → ℕ → ℚ)
    (h : ∀ i, i < H → ∀ j, j < W → g i j = g2 i j) :
    dot2 H W f g = dot2 H W f g2 := by
  refine Finset.sum_congr rfl (fun i hi => Finset.sum_congr rfl (fun j hj => ?_))
  rw [h i (Finset.mem_range.mp hi) j (Finset.mem_range.mp hj)]

/-- 2D padding adjoint: the inner product of a padded plane against any
plane equals the inner product of the plane against the composed
row/column fold.  Stated generically in the two 1D index maps and folds. -/
theorem dot2_pad_fold (H W p q : ℕ) (r c : ℕ → ℕ)
    (foldR foldC : (ℕ → ℚ) → ℕ → ℚ) (x Z : ℕ → ℕ → ℚ)
    (hrow : ∀ (u z : ℕ → ℚ),
      ∑ i ∈ Finset.range (p + H + p), u (r i) * z i
        = ∑ n ∈ Finset.range H, u n * foldR z n)
    (hcol : ∀ (u z : ℕ → ℚ),
      ∑ j ∈ Finset.range (q + W + q), u (c j) * z j
        = ∑ n ∈ Finset.range W, u n * foldC z n) :
    ∑ i ∈ Finset.range (p + H + p), ∑ j ∈ Finset.range (q + W + q),
        x (r i) (c j) * Z i j
      = ∑ n ∈ Finset.range H, ∑ m ∈ Finset.range W,
          x n m * foldR (fun i => foldC (Z i) m) n := by
  have step1 : ∀ i, ∑ j ∈ Finset.range (q + W + q), x (r i) (c j) * Z i j
      = ∑ m ∈ Finset.range W, x (r i) m * foldC (Z i) m := fun i =>
    hcol (fun b => x (r i) b) (Z i)
  rw [Finset.sum_congr rfl (fun i _ => step1 i), Finset.sum_comm]
  have step2 : ∀ m, ∑ i ∈ Finset.range (p + H + p), x (r i) m * foldC (Z i) m
      = ∑ n ∈ Finset.range H, x n m * foldR (fun i => foldC (Z i) m) n := fun m =>
    hrow (fun a => x a m) (fun i => foldC (Z i) m)
  rw [Finset.sum_congr rfl (fun m _ => step2 m), Finset.sum_comm]

/-- Plane adjointness, valid padding: conv_transpose is the exact adjoint
of conv for every kernel size. -/
theorem dot_convPlane_valid (H W h w : ℕ) (hh1 : 1 ≤ h) (hw1 : 1 ≤ w)
    (hH : h ≤ H) (hW : w ≤ W) (k x y : ℕ → ℕ → ℚ) :
    dot2 (convOutH PadMode.valid H h) (convOutW PadMode.valid W w)
        (convPlane PadMode.valid H W h w k x) y
      = dot2 H W x (convTPlane PadMode.valid (convOutH PadMode.valid H h)
          (convOutW PadMode.valid W w) h w k y) := by
  have hOutH : convOutH PadMode.valid H h = H + 1 - h := rfl
  have hOutW : convOutW PadMode.valid W w = W + 1 - w := rfl
  have hL : dot2 (convOutH PadMode.valid H h) (convOutW PadMode.valid W w)
      (convPlane PadMode.valid H W h w k x) y
        = dot2 (H + 1 - h) (W + 1 - w) (cc h w k x) y := by
    rw [hOutH, hOutW]
    refine dot2_congr_left _ _ _ _ _ (fun i hi j hj => ?_)
    rw [convPlane, if_pos]
    constructor
    · rw [hOutH]; exact hi
    · rw [hOutW]; exact hj
  have hR : dot2 H W x (convTPlane PadMode.valid (convOutH PadMode.valid H h)
      (convOutW PadMode.valid W w) h w k y)
        = dot2 H W x (ct (H + 1 - h) (W + 1 - w) h w k y) := by
    refine dot2_congr_right _ _ _ _ _ (fun n hn mm hm => ?_)
    rw [hOutH, hOutW, convTPlane, if_pos]
    have e1 : convTOutH PadMode.valid (H + 1 - h) h = H := by
      rw [convTOutH]; omega
    have e2 : convTOutW PadMode.valid (W + 1 - w) w = W := by
      rw [convTOutW, convTOutH]; omega
    rw [e1, e2]
    exact ⟨hn, hm⟩
  rw [hL, hR]
  exact dot_cc_ct H W h w hh1 hH hw1 hW k x y

/-- Plane adjointness, circular padding: conv_transpose is the exact
adjoint of conv when the padding extents are at least 1. -/
theorem dot_convPlane_circular (H W h w : ℕ) (hh1 : 1 ≤ h) (hw1 : 1 ≤ w)
    (hp1 : 1 ≤ padExtent h) (hq1 : 1 ≤ padExtent w)
    (hpH : padExtent h + 1 ≤ H) (hqW : padExtent w + 1 ≤ W)
    (k x y : ℕ → ℕ → ℚ) :
    dot2 (convOutH PadMode.circular H h) (convOutW PadMode.circular W w)
        (convPlane PadMode.circular H W h w k x) y
      = dot2 H W x (convTPlane PadMode.circular (convOutH PadMode.circular H h)
          (convOutW PadMode.circular W w) h w k y) := by
  have hph2 : h ≤ 2 * padExtent h + 2 := by rw [padExtent]; omega
  have hqw2 : w ≤ 2 * padExtent w + 2 := by rw [padExtent]; omega
  have hhp : h ≤ H + 2 * padExtent h := by omega
  have hwq : w ≤ W + 2 * padExtent w := by omega
  have hOutH : convOutH PadMode.circular H h = H + 2 * padExtent h + 1 - h := rfl
  have hOutW : convOutW PadMode.circular W w = W + 2 * padExtent w + 1 - w := rfl
  set p := padExtent h with hpdef
  set q := padExtent w with hqdef
  set Z := ct (H + 2 * p + 1 - h) (W + 2 * q + 1 - w) h w k y with hZ
  have hL : dot2 (convOutH PadMode.circular H h) (convOutW PadMode.circular W w)
      (convPlane PadMode.circular H W h w k x) y
        = dot2 (H + 2 * p + 1 - h) (W + 2 * q + 1 - w)
            (cc h w k (fun a b =>
              x (padIdx PadMode.circular H p a) (padIdx PadMode.circular W q b))) y := by
    rw [hOutH, hOutW]
    refine dot2_congr_left _ _ _ _ _ (fun i hi j hj => ?_)
    rw [convPlane, if_pos (show i < convOutH PadMode.circular H h
      ∧ j < convOutW PadMode.circular W w by rw [hOutH, hOutW]; exact ⟨hi, hj⟩)]
    decide
  have step2 : dot2 (H + 2 * p + 1 - h) (W + 2 * q + 1 - w)
      (cc h w k (fun a b =>
        x (padIdx PadMode.circular H p a) (padIdx PadMode.circular W q b))) y
        = dot2 (H + 2 * p) (W + 2 * q)
            (fun a b => x (padIdx PadMode.circular H p a) (padIdx PadMode.circular W q b))
            Z :=
    dot_cc_ct (H + 2 * p) (W + 2 * q) h w hh1 hhp hw1 hwq k _ y
  have step3 : dot2 (H + 2 * p) (W + 2 * q)
      (fun a b => x (padIdx PadMode.circular H p a) (padIdx PadMode.circular W q b)) Z
        = ∑ n ∈ Finset.range H, ∑ mm ∈ Finset.range W,
            x n mm * fold1c H p (fun i => fold1c W q (Z i) mm) n := by
    have eA : Finset.range (H + 2 * p) = Finset.range (p + H + p) := by
      congr 1
      omega
    have eB : Finset.range (W + 2 * q) = Finset.range (q + W + q) := by
      congr 1
      omega
    rw [dot2, eA]
    have eRow : ∀ i, ∑ j ∈ Finset.range (W + 2 * q),
        x (padIdx PadMode.circular H p i) (padIdx PadMode.circular W q j) * Z i j
          = ∑ j ∈ Finset.range (q + W + q),
              x (padIdx PadMode.circular H p i) (padIdx PadMode.circular W q j) * Z i j := by
      intro i
      rw [eB]
    rw [Finset.sum_congr rfl (fun i _ => eRow i)]
    exact dot2_pad_fold H W p q (padIdx PadMode.circular H p) (padIdx PadMode.circular W q)
      (fold1c H p) (fold1c W q) x Z
      (fun u z => padfold1_circular H p (by omega) (by omega) u z)
      (fun u z => padfold1_circular W q (by omega) (by omega) u z)
  have hR : dot2 H W x (convTPlane PadMode.circular (convOutH PadMode.circular H h)
      (convOutW PadMode.circular W w) h w k y)
        = ∑ n ∈ Finset.range H, ∑ mm ∈ Finset.range W,
            x n mm * fold1c H p (fun i => fold1c W q (Z i) mm) n := by
    have eT1 : convTOutH PadMode.circular (H + 2 * p + 1 - h) h = H := by
      simp only [convTOutH]
      rw [if_neg (by omega)]
      omega
    have eT2 : convTOutW PadMode.circular (W + 2 * q + 1 - w) w = W := by
      simp only [convTOutW, convTOutH]
      rw [if_neg (by omega)]
      omega
    have hpt : dot2 H W x (convTPlane PadMode.circular (H + 2 * p + 1 - h)
        (W + 2 * q + 1 - w) h w k y)
          = dot2 H W x (fun n mm => fold2c H W p q Z n mm) := by
      refine dot2_congr_right _ _ _ _ _ (fun n hn mm hm => ?_)
      rw [convTPlane, if_pos (show n < convTOutH PadMode.circular (H + 2 * p + 1 - h) h
        ∧ mm < convTOutW PadMode.circular (W + 2 * q + 1 - w) w
          by rw [eT1, eT2]; exact ⟨hn, hm⟩)]
      rw [eT1, eT2]
    rw [hOutH, hOutW, hpt]
    rw [dot2]
    refine Finset.sum_congr rfl (fun n _ => Finset.sum_congr rfl (fun mm _ => ?_))
    rw [fold2c_comp]
  rw [hL, step2, step3, hR]

/-- Plane adjointness, reflect padding: conv_transpose is the exact
adjoint of conv when the padding extents are at least 1. -/
theorem dot_convPlane_reflect (H W h w : ℕ) (hh1 : 1 ≤ h) (hw1 : 1 ≤ w)
    (hp1 : 1 ≤ padExtent h) (hq1 : 1 ≤ padExtent w)
    (hpH : padExtent h + 1 ≤ H) (hqW : padExtent w + 1 ≤ W)
    (k x y : ℕ → ℕ → ℚ) :
    dot2 (convOutH PadMode.reflect H h) (convOutW PadMode.reflect W w)
        (convPlane PadMode.reflect H W h w k x) y
      = dot2 H W x (convTPlane PadMode.reflect (convOutH PadMode.reflect H h)
          (convOutW PadMode.reflect W w) h w k y) := by
  have hph2 : h ≤ 2 * padExtent h + 2 := by rw [padExtent]; omega
  have hqw2 : w ≤ 2 * padExtent w + 2 := by rw [padExtent]; omega
  have hhp : h ≤ H + 2 * padExtent h := by omega
  have hwq : w ≤ W + 2 * padExtent w := by omega
  have hOutH : convOutH PadMode.reflect H h = H + 2 * padExtent h + 1 - h := rfl
  have hOutW : convOutW PadMode.reflect W w = W + 2 * padExtent w + 1 - w := rfl
  set p := padExtent h with hpdef
  set q := padExtent w with hqdef
  set Z := ct (H + 2 * p + 1 - h) (W + 2 * q + 1 - w) h w k y with hZ
  have hL : dot2 (convOutH PadMode.reflect H h) (convOutW PadMode.reflect W w)
      (convPlane PadMode.reflect H W h w k x) y
        = dot2 (H + 2 * p + 1 - h) (W + 2 * q + 1 - w)
            (cc h w k (fun a b =>
              x (padIdx PadMode.reflect H p a) (padIdx PadMode.reflect W q b))) y := by
    rw [hOutH, hOutW]
    refine dot2_congr_left _ _ _ _ _ (fun i hi j hj => ?_)
    rw [convPlane, if_pos (show i < convOutH PadMode.reflect H h
      ∧ j < convOutW PadMode.reflect W w by rw [hOutH, hOutW]; exact ⟨hi, hj⟩)]
    decide
  have step2 : dot2 (H + 2 * p + 1 - h) (W + 2 * q + 1 - w)
      (cc h w k (fun a b =>
        x (padIdx PadMode.reflect H p a) (padIdx PadMode.reflect W q b))) y
        = dot2 (H + 2 * p) (W + 2 * q)
            (fun a b => x (padIdx PadMode.reflect H p a) (padIdx PadMode.reflect W q b))
            Z :=
    dot_cc_ct (H + 2 * p) (W + 2 * q) h w hh1 hhp hw1 hwq k _ y
  have step3 : dot2 (H + 2 * p) (W + 2 * q)
      (fun a b => x (padIdx PadMode.reflect H p a) (padIdx PadMode.reflect W q b)) Z
        = ∑ n ∈ Finset.range H, ∑ mm ∈ Finset.range W,
            x n mm * fold1r H p (fun i => fold1r W q (Z i) mm) n := by
    have eA : Finset.range (H + 2 * p) = Finset.range (p + H + p) := by
      congr 1
      omega
    have eB : Finset.range (W + 2 * q) = Finset.range (q + W + q) := by
      congr 1
      omega
    rw [dot2, eA]
    have eRow : ∀ i, ∑ j ∈ Finset.range (W + 2 * q),
        x (padIdx PadMode.reflect H p i) (padIdx PadMode.reflect W q j) * Z i j
          = ∑ j ∈ Finset.range (q + W + q),
              x (padIdx PadMode.reflect H p i) (padIdx PadMode.reflect W q j) * Z i j := by
      intro i
      rw [eB]
    rw [Finset.sum_congr rfl (fun i _ => eRow i)]
    exact dot2_pad_fold H W p q (padIdx PadMode.reflect H p) (padIdx PadMode.reflect W q)
      (fold1r H p) (fold1r W q) x Z
      (fun u z => padfold1_reflect H p (by omega) u z)
      (fun u z => padfold1_reflect W q (by omega) u z)
  have hR : dot2 H W x (convTPlane PadMode.reflect (convOutH PadMode.reflect H h)
      (convOutW PadMode.reflect W w) h w k y)
        = ∑ n ∈ Finset.range H, ∑ mm ∈ Finset.range W,
            x n mm * fold1r H p (fun i => fold1r W q (Z i) mm) n := by
    have eT1 : convTOutH PadMode.reflect (H + 2 * p + 1 - h) h = H := by
      simp only [convTOutH]
      rw [if_neg (by omega)]
      omega
    have eT2 : convTOutW PadMode.reflect (W + 2 * q + 1 - w) w = W := by
      simp only [convTOutW, convTOutH]
      rw [if_neg (by omega)]
      omega
    have hpt : dot2 H W x (convTPlane PadMode.reflect (H + 2 * p + 1 - h)
        (W + 2 * q + 1 - w) h w k y)
          = dot2 H W x (fun n mm => fold2r H W p q Z n mm) := by
      refine dot2_congr_right _ _ _ _ _ (fun n hn mm hm => ?_)
      rw [convTPlane, if_pos (show n < convTOutH PadMode.reflect (H + 2 * p + 1 - h) h
        ∧ mm < convTOutW PadMode.reflect (W + 2 * q + 1 - w) w
          by rw [eT1, eT2]; exact ⟨hn, hm⟩)]
      rw [eT1, eT2]
    rw [hOutH, hOutW, hpt]
    rw [dot2]
    refine Finset.sum_congr rfl (fun n _ => Finset.sum_congr rfl (fun mm _ => ?_))
    rw [fold2r_comp]
  rw [hL, step2, step3, hR]

/-- Plane adjointness, replicate padding: conv_transpose is the exact
adjoint of conv when the padding extents are at least 1. -/
theorem dot_convPlane_replicate (H W h w : ℕ) (hh1 : 1 ≤ h) (hw1 : 1 ≤ w)
    (hp1 : 1 ≤ padExtent h) (hq1 : 1 ≤ padExtent w)
    (hpH : padExtent h + 1 ≤ H) (hqW : padExtent w + 1 ≤ W)
    (k x y : ℕ → ℕ → ℚ) :
    dot2 (convOutH PadMode.replicate H h) (convOutW PadMode.replicate W w)
        (convPlane PadMode.replicate H W h w k x) y
      = dot2 H W x (convTPlane PadMode.replicate (convOutH PadMode.replicate H h)
          (convOutW PadMode.replicate W w) h w k y) := by
  have hph2 : h ≤ 2 * padExtent h + 2 := by rw [padExtent]; omega
  have hqw2 : w ≤ 2 * padExtent w + 2 := by rw [padExtent]; omega
  have hhp : h ≤ H + 2 * padExtent h := by omega
  have hwq : w ≤ W + 2 * padExtent w := by omega
  have hOutH : convOutH PadMode.replicate H h = H + 2 * padExtent h + 1 - h := rfl
  have hOutW : convOutW PadMode.replicate W w = W + 2 * padExtent w + 1 - w := rfl
  set p := padExtent h with hpdef
  set q := padExtent w with hqdef
  set Z := ct (H + 2 * p + 1 - h) (W + 2 * q + 1 - w) h w k y with hZ
  have hL : dot2 (convOutH PadMode.replicate H h) (convOutW PadMode.replicate W w)
      (convPlane PadMode.replicate H W h w k x) y
        = dot2 (H + 2 * p + 1 - h) (W + 2 * q + 1 - w)
            (cc h w k (fun a b =>
              x (padIdx PadMode.replicate H p a) (padIdx PadMode.replicate W q b))) y := by
    rw [hOutH, hOutW]
    refine dot2_congr_left _ _ _ _ _ (fun i hi j hj => ?_)
    rw [convPlane, if_pos (show i < convOutH PadMode.replicate H h
      ∧ j < convOutW PadMode.replicate W w by rw [hOutH, hOutW]; exact ⟨hi, hj⟩)]
    decide
  have step2 : dot2 (H + 2 * p + 1 - h) (W + 2 * q + 1 - w)
      (cc h w k (fun a b =>
        x (padIdx PadMode.replicate H p a) (padIdx PadMode.replicate W q b))) y
        = dot2 (H + 2 * p) (W + 2 * q)
            (fun a b => x (padIdx PadMode.replicate H p a) (padIdx PadMode.replicate W q b))
            Z :=
    dot_cc_ct (H + 2 * p) (W + 2 * q) h w hh1 hhp hw1 hwq k _ y
  have step3 : dot2 (H + 2 * p) (W + 2 * q)
      (fun a b => x (padIdx PadMode.replicate H p a) (padIdx PadMode.replicate W q b)) Z
        = ∑ n ∈ Finset.range H, ∑ mm ∈ Finset.range W,
            x n mm * fold1p H p (fun i => fold1p W q (Z i) mm) n := by
    have eA : Finset.range (H + 2 * p) = Finset.range (p + H + p) := by
      congr 1
      omega
    have eB : Finset.range (W + 2 * q) = Finset.range (q + W + q) := by
      congr 1
      omega
    rw [dot2, eA]
    have eRow : ∀ i, ∑ j ∈ Finset.range (W + 2 * q),
        x (padIdx PadMode.replicate H p i) (padIdx PadMode.replicate W q j) * Z i j
          = ∑ j ∈ Finset.range (q + W + q),
              x (padIdx PadMode.replicate H p i) (padIdx PadMode.replicate W q j) * Z i j := by
      intro i
      rw [eB]
    rw [Finset.sum_congr rfl (fun i _ => eRow i)]
    exact dot2_pad_fold H W p q (padIdx PadMode.replicate H p) (padIdx PadMode.replicate W q)
      (fold1p H p) (fold1p W q) x Z
      (fun u z => padfold1_replicate H p (by omega) u z)
      (fun u z => padfold1_replicate W q (by omega) u z)
  have hR : dot2 H W x (convTPlane PadMode.replicate (convOutH PadMode.replicate H h)
      (convOutW PadMode.replicate W w) h w k y)
        = ∑ n ∈ Finset.range H, ∑ mm ∈ Finset.range W,
            x n mm * fold1p H p (fun i => fold1p W q (Z i) mm) n := by
    have eT1 : convTOutH PadMode.replicate (H + 2 * p + 1 - h) h = H := by
      simp only [convTOutH]
      rw [if_neg (by omega)]
      omega
    have eT2 : convTOutW PadMode.replicate (W + 2 * q + 1 - w) w = W := by
      simp only [convTOutW, convTOutH]
      rw [if_neg (by omega)]
      omega
    have hpt : dot2 H W x (convTPlane PadMode.replicate (H + 2 * p + 1 - h)
        (W + 2 * q + 1 - w) h w k y)
          = dot2 H W x (fun n mm => fold2p H W p q Z n mm) := by
      refine dot2_congr_right _ _ _ _ _ (fun n hn mm hm => ?_)
      rw [convTPlane, if_pos (show n < convTOutH PadMode.replicate (H + 2 * p + 1 - h) h
        ∧ mm < convTOutW PadMode.replicate (W + 2 * q + 1 - w) w
          by rw [eT1, eT2]; exact ⟨hn, hm⟩)]
      rw [eT1, eT2]
    rw [hOutH, hOutW, hpt]
    rw [dot2]
    refine Finset.sum_congr rfl (fun n _ => Finset.sum_congr rfl (fun mm _ => ?_))
    rw [fold2p_comp]
  rw [hL, step2, step3, hR]


/-! ############################################################
    Claim C1: adjointness of conv and conv_transpose
    ############################################################ -/

/-- C1 (amended): conv_transpose(., k, pad) is the exact linear adjoint of
conv(., k, pad) for every 4D image and broadcastable kernel, for valid
padding with any kernel size, and for circular, reflect and replicate
padding whenever both kernel spatial sizes are at least 3 (equivalently,
both padding extents (h-1)/2 and (w-1)/2 are at least 1) and the padding
extents satisfy the torch legality bound extent + 1 <= image size.
(The claim as frozen also covers kernels with a spatial size of 1 or 2
under non-valid padding; those are refuted by C1_counterexample: there the
interior crop x[0:-0] of conv_transpose is empty.) -/
theorem C1_adjointness (m : PadMode) (B C H W b c h w : ℕ)
    (x k y : ℕ → ℕ → ℕ → ℕ → ℚ)
    (hb : b = 1 ∨ b = B) (hc : c = 1 ∨ c = C)
    (hh1 : 1 ≤ h) (hw1 : 1 ≤ w)
    (hv : m = PadMode.valid → h ≤ H ∧ w ≤ W)
    (hnv : m ≠ PadMode.valid → 3 ≤ h ∧ 3 ≤ w
      ∧ padExtent h + 1 ≤ H ∧ padExtent w + 1 ≤ W) :
    dot4 B C (convOutH m H h) (convOutW m W w) (conv m H W b c h w x k) y
      = dot4 B C H W x
          (conv_transpose m (convOutH m H h) (convOutW m W w) b c h w y k) := by
  rw [dot4, dot4]
  refine Finset.sum_congr rfl (fun bi _ => Finset.sum_congr rfl (fun ci _ => ?_))
  cases m with
  | valid =>
      obtain ⟨h1, h2⟩ := hv rfl
      exact dot_convPlane_valid H W h w hh1 hw1 h1 h2 _ _ _
  | circular =>
      obtain ⟨h3, h4, h5, h6⟩ := hnv (by decide)
      have hp1 : 1 ≤ padExtent h := by rw [padExtent]; omega
      have hq1 : 1 ≤ padExtent w := by rw [padExtent]; omega
      exact dot_convPlane_circular H W h w hh1 hw1 hp1 hq1 h5 h6 _ _ _
  | reflect =>
      obtain ⟨h3, h4, h5, h6⟩ := hnv (by decide)
      have hp1 : 1 ≤ padExtent h := by rw [padExtent]; omega
      have hq1 : 1 ≤ padExtent w := by rw [padExtent]; omega
      exact dot_convPlane_reflect H W h w hh1 hw1 hp1 hq1 h5 h6 _ _ _
  | replicate =>
      obtain ⟨h3, h4, h5, h6⟩ := hnv (by decide)
      have hp1 : 1 ≤ padExtent h := by rw [padExtent]; omega
      have hq1 : 1 ≤ padExtent w := by rw [padExtent]; omega
      exact dot_convPlane_replicate H W h w hh1 hw1 hp1 hq1 h5 h6 _ _ _

/-- Witness for C1_adjointness: the adjoint identity instantiated with a
concrete non-symmetric 3x3 kernel on a 4x4 image under reflect padding. -/
theorem C1_adjointness_witness :
    dot4 1 1 (convOutH PadMode.reflect 4 3) (convOutW PadMode.reflect 4 3)
        (conv PadMode.reflect 4 4 1 1 3 3 xW1 kW1) yW1
      = dot4 1 1 4 4 xW1
          (conv_transpose PadMode.reflect (convOutH PadMode.reflect 4 3)
            (convOutW PadMode.reflect 4 3) 1 1 3 3 yW1 kW1) :=
  C1_adjointness PadMode.reflect 1 1 4 4 1 1 3 3 xW1 kW1 yW1
    (Or.inl rfl) (Or.inl rfl) (by norm_num) (by norm_num)
    (fun hcon => absurd hcon (by decide))
    (fun _ => by refine ⟨by norm_num, by norm_num, ?_, ?_⟩ <;>
      simp [padExtent])

/-- Counterexample to C1 as frozen: with the 2x2 uniform kernel under
circular padding (padding extent 0), the inner products differ on a 2x2
image: conv side gives 1/4 while the conv_transpose side gives 0, because
the interior crop x[0:-0] in the source is the empty slice. -/
theorem C1_counterexample :
    dot4 1 1 (convOutH PadMode.circular 2 2) (convOutW PadMode.circular 2 2)
        (conv PadMode.circular 2 2 1 1 2 2 xC1 kC1) yC1
      ≠ dot4 1 1 2 2 xC1
          (conv_transpose PadMode.circular (convOutH PadMode.circular 2 2)
            (convOutW PadMode.circular 2 2) 1 1 2 2 yC1 kC1) := by
  have hout : convOutH PadMode.circular 2 2 = 1 := by
    simp only [convOutH, padExtent]
  have hL : dot4 1 1 (convOutH PadMode.circular 2 2) (convOutW PadMode.circular 2 2)
      (conv PadMode.circular 2 2 1 1 2 2 xC1 kC1) yC1 = 1 / 4 := by
    simp only [dot4, dot2, conv, convPlane, convOutH, convOutW, convTOutH, convTOutW,
      kernPlane, cc, padIdx, padExtent, xC1, kC1, yC1, Finset.sum_range_succ,
      Finset.sum_range_zero]
    norm_num
  have hR : dot4 1 1 2 2 xC1
      (conv_transpose PadMode.circular (convOutH PadMode.circular 2 2)
        (convOutW PadMode.circular 2 2) 1 1 2 2 yC1 kC1) = 0 := by
    have hzero : ∀ n mm : ℕ,
        conv_transpose PadMode.circular (convOutH PadMode.circular 2 2)
          (convOutW PadMode.circular 2 2) 1 1 2 2 yC1 kC1 0 0 n mm = 0 := by
      intro n mm
      rw [conv_transpose, convTPlane, if_neg]
      intro hcon
      have hbad : convTOutH PadMode.circular (convOutH PadMode.circular 2 2) 2 = 0 := by
        simp [convTOutH, convOutH, padExtent]
      rw [hbad] at hcon
      omega
    simp only [dot4, dot2, Finset.sum_range_succ, Finset.sum_range_zero]
    rw [hzero 0 0, hzero 0 1, hzero 1 0, hzero 1 1]
    norm_num
  rw [hL, hR]
  norm_num



/-! ############################################################
    Claims C3 and C4: the 2x2-kernel scenarios
    ############################################################ -/

/-- C3: blurring the 16x16 delta-at-(8,8) image with the 2x2 uniform
averaging kernel under circular padding puts the value 1/4 at exactly the
four pixels (7,7), (7,8), (8,7), (8,8) and 0 at every other pixel of the
output (which has spatial size 15x15, since this source tree applies no
kernel re-centering). -/
theorem C3_concrete_scenario :
    convOutH PadMode.circular 16 2 = 15 ∧ convOutW PadMode.circular 16 2 = 15
      ∧ ∀ i, i < 15 → ∀ j, j < 15 →
          convPlane PadMode.circular 16 16 2 2 k22C3 x16C3 i j
            = if (i = 7 ∨ i = 8) ∧ (j = 7 ∨ j = 8) then 1 / 4 else 0 := by
  have hout : convOutH PadMode.circular 16 2 = 15 := by
    simp [convOutH, padExtent]
  refine ⟨hout, hout, fun i hi j hj => ?_⟩
  rw [convPlane, if_pos (show i < convOutH PadMode.circular 16 2
    ∧ j < convOutW PadMode.circular 16 2 by
      rw [convOutW, hout]; exact ⟨by omega, by omega⟩)]
  · have hpe : padExtent 2 = 0 := by simp [padExtent]
    have hpad : ∀ a, a < 16 → padIdx PadMode.circular 16 (padExtent 2) a = a := by
      intro a ha
      simp only [padIdx, hpe]
      omega
    rw [cc]
    rw [Finset.sum_range_succ, Finset.sum_range_succ, Finset.sum_range_succ,
      Finset.sum_range_succ, Finset.sum_range_succ, Finset.sum_range_succ]
    simp only [Finset.sum_range_zero]
    rw [hpad (i + 0) (by omega), hpad (i + 1) (by omega),
      hpad (j + 0) (by omega), hpad (j + 1) (by omega)]
    unfold x16C3 k22C3
    by_cases h7 : i = 7 <;> by_cases h8 : i = 8 <;> by_cases g7 : j = 7 <;>
      by_cases g8 : j = 8 <;>
      simp only [h7, h8, g7, g8] <;> norm_num <;>
      split_ifs <;> norm_num <;> omega
  · decide

/-- Witness for C3_concrete_scenario: pixel (8,8) of the output is 1/4. -/
theorem C3_concrete_scenario_witness :
    convPlane PadMode.circular 16 16 2 2 k22C3 x16C3 8 8 = 1 / 4 := by
  have h := C3_concrete_scenario.2.2 8 (by norm_num) 8 (by norm_num)
  rw [h]
  norm_num

/-- C4 (code bug evaluation): conv does NOT re-center even kernels; with
the 2x2 kernel under circular padding on a 16x16 image the output height
is 15, not the same-size 16 the claim requires, while the (unused)
extend_filter rule would have enlarged the kernel to size 3 and produced a
16x16 same-size output. -/
theorem C4_no_recenter_output_shrinks :
    convOutH PadMode.circular 16 2 = 15
      ∧ extendFilterSize 2 = 3
      ∧ convOutH PadMode.circular 16 (extendFilterSize 2) = 16
      ∧ extend_filter 2 2 k22C3 0 0 = 1 / 4 ∧ extend_filter 2 2 k22C3 2 2 = 0 := by
  refine ⟨?_, ?_, ?_, ?_, ?_⟩ <;>
    simp [convOutH, padExtent, extendFilterSize, extend_filter, extendFilterOff,
      k22C3] <;> norm_num


/-! ############################################################
    Claims C2, C9, C10: constructor and method contracts
    ############################################################ -/

/-- C2 (code bug evaluation): on every Blur instance whose construction
completed, calling apply (Blur.A) or adjoint (Blur.A_adjoint) raises
AttributeError, because both read self.filter while the constructor only
ever stores the kernel in self.params. -/
theorem C2_blur_apply_reads_missing_attribute :
    ∀ (arg : FilterArg) (pad : PadMode) (st : BlurState),
      blur_init arg pad = Except.ok st →
      blur_A_filter st = Except.error InitError.attributeError := by
  decide

/-- Witness for C2: the state built from a Parameter-wrapped kernel. -/
theorem C2_blur_apply_reads_missing_attribute_witness :
    blur_A_filter
      { params := some FilterArg.parameter, filterAttr := none,
        padding := PadMode.circular }
      = Except.error InitError.attributeError :=
  C2_blur_apply_reads_missing_attribute FilterArg.parameter PadMode.circular
    { params := some FilterArg.parameter, filterAttr := none,
      padding := PadMode.circular } (by decide)

/-- Counterexample to C10 as frozen: Blur construction with filter None
completes, although None is not in the claim's list of arguments for which
Blur construction may complete (Parameter-wrapped filters and the named
presets; None only for Downsampling). -/
theorem C10_counterexample :
    (blur_init FilterArg.noFilter PadMode.circular).isOk = true := by
  decide

/-- C10 (amended): a plain-Tensor filter raises AttributeError in both
constructors (self.params is read before it is ever assigned);
Downsampling construction completes exactly for Parameter, None and the
three named presets (an unknown name raises); Blur construction completes
for EVERY argument other than a plain Tensor, because its constructor
ignores non-Tensor arguments entirely. -/
theorem C10_param_attribute_characterization :
    ∀ (arg : FilterArg) (pad : PadMode),
      (downsampling_init arg = Except.error InitError.attributeError
        ↔ arg = FilterArg.tensor)
      ∧ ((downsampling_init arg).isOk = true
        ↔ (arg = FilterArg.parameter ∨ arg = FilterArg.noFilter
            ∨ arg = FilterArg.presetGaussian ∨ arg = FilterArg.presetBilinear
            ∨ arg = FilterArg.presetBicubic))
      ∧ (blur_init arg pad = Except.error InitError.attributeError
        ↔ arg = FilterArg.tensor)
      ∧ ((blur_init arg pad).isOk = true ↔ ¬ arg = FilterArg.tensor) := by
  decide

/-- The define_zernike list has 38 entries (indices 0 through 37). -/
theorem define_zernike_length : define_zernike.length = 38 := rfl

/-- The basis loop succeeds exactly when every requested index is within
the 38-entry table. -/
theorem buildZ_isOk (L : List ℕ) :
    (buildZ L).isOk = true ↔ ∀ i ∈ L, i < 38 := by
  induction L with
  | nil => simp [buildZ, Except.isOk, Except.toBool]
  | cons a t ih =>
    rw [buildZ]
    cases hget : define_zernike.get? a with
    | some f =>
      have ha : a < 38 := by
        have hs := List.get?_eq_some.mp hget
        obtain ⟨hlt, _⟩ := hs
        rw [define_zernike_length] at hlt
        exact hlt
      cases hb : buildZ t with
      | ok l =>
        rw [hb] at ih
        simp only [Except.map]
        constructor
        · intro _ i hm
          rcases List.mem_cons.mp hm with rfl | hm2
          · exact ha
          · exact ih.mp rfl i hm2
        · intro _
          rfl
      | error s =>
        rw [hb] at ih
        simp only [Except.map]
        constructor
        · intro hcon
          exact absurd hcon (by simp [Except.isOk, Except.toBool])
        · intro hall
          have h2 : ∀ i ∈ t, i < 38 := fun i hm => hall i (List.mem_cons_of_mem a hm)
          exact absurd (ih.mpr h2) (by simp [Except.isOk, Except.toBool])
    | none =>
      constructor
      · intro hcon
        exact absurd hcon (by simp [Except.isOk, Except.toBool])
      · intro hall
        exfalso
        have ha : a < 38 := hall a (List.mem_cons_self a t)
        have hlen : define_zernike.length ≤ a := List.get?_eq_none.mp hget
        rw [define_zernike_length] at hlen
        omega

/-- np.max as a fold, compared against a bound. -/
theorem foldr_max_le (L : List ℕ) (n : ℕ) :
    L.foldr Nat.max 0 ≤ n ↔ ∀ i ∈ L, i ≤ n := by
  induction L with
  | nil => simp
  | cons a t ih => simp [Nat.max_le, ih]

/-- Counterexample to C9 as frozen: the index list [38] is a subset of
1..38 and exceeds-38 is false, yet construction does not succeed: the
assert max <= 38 passes and the basis loop then fails with an
out-of-range access, because the define_zernike table only has indices
0..37. -/
theorem C9_counterexample :
    (∀ i ∈ [38], 1 ≤ i ∧ i ≤ 38) ∧ (diffraction_init [38]).isOk = false := by
  constructor
  · decide
  · rfl

/-- C9 (amended): for every nonempty requested index list, construction of
the Diffraction-PSF generator succeeds if and only if every index is at
most 37.  An index above 38 is rejected by the assert; the index 38 slips
past the assert and fails at the Zernike table lookup; both failures
happen at construction time, before any data-dependent work. -/
theorem C9_zernike_index_validation (L : List ℕ) (hL : L ≠ []) :
    (diffraction_init L).isOk = true ↔ ∀ i ∈ L, i ≤ 37 := by
  rw [diffraction_init, if_neg hL]
  by_cases hmax : 38 < L.foldr Nat.max 0
  · rw [if_pos hmax]
    simp only [Except.isOk, Except.toBool]
    constructor
    · intro hcon
      exact absurd hcon (by simp)
    · intro hall
      have : L.foldr Nat.max 0 ≤ 38 := by
        rw [foldr_max_le]
        intro i hm
        exact Nat.le_trans (hall i hm) (by omega)
      omega
  · rw [if_neg hmax]
    rw [buildZ_isOk]
    constructor
    · intro hall i hm
      have h38 : i ≤ 38 := (foldr_max_le L 38).mp (by omega) i hm
      have := hall i hm
      omega
    · intro hall i hm
      have := hall i hm
      omega

/-- Witness for C9_zernike_index_validation: the default index list
Z4..Z11 is accepted and the basis is built. -/
theorem C9_zernike_index_validation_witness :
    (diffraction_init [4, 5, 6, 7, 8, 9, 10, 11]).isOk = true :=
  (C9_zernike_index_validation [4, 5, 6, 7, 8, 9, 10, 11] (by decide)).mpr
    (by decide)

/-! ############################################################
    Claims C7 and C8: the PSF generators
    ############################################################ -/

/-- The sliced trajectory length at the default n_steps = 1000:
floor(1000 / (2*pi)) = 159. -/
theorem trajLen_1000 : trajLen 1000 = 159 := by
  rw [trajLen]
  have h1 : (3.141592 : ℝ) < Real.pi := Real.pi_gt_d6
  have h2 : Real.pi < 3.141593 := Real.pi_lt_d6
  rw [Nat.floor_eq_iff (by positivity)]
  constructor
  · rw [le_div_iff₀ (by positivity)]
    push_cast
    nlinarith
  · rw [div_lt_iff₀ (by positivity)]
    push_cast
    nlinarith

/-- Counterexample to C8 as frozen: at the default n_steps = 1000 the
trajectory coordinate sequences do not have length n_steps; the slice
torch.arange(n_steps // (2*pi)) keeps only 159 of the 1000 points. -/
theorem C8_counterexample : trajLen 1000 ≠ 1000 := by
  rw [trajLen_1000]
  norm_num

/-- C8 (amended): each coordinate sequence is obtained by multiplying the
noise spectrum by the square root of the spectrum of the covariance
sigma^2 (1 + sqrt(5)|d|/l + 5 d^2/(3 l^2)) exp(-sqrt(5)|d|/l) (the
Matern-5/2 closed form, as displayed in the generator docstring) sampled
at n_steps points on [-pi, pi], inverse-transforming, slicing to
floor(n_steps/(2*pi)) entries and de-meaning; the de-meaned sequence sums
to zero, and at the default n_steps = 1000 its length is 159. -/
theorem C8_trajectory_pipeline (n : ℕ) (sigma l : ℝ) (vec : ℕ → ℝ)
    (hl : l ≠ 0) (hn : 1 ≤ trajLen n) :
    (∀ diff : ℝ, matern_kernel sigma l diff
        = sigma ^ 2 * (1 + Real.sqrt 5 * |diff| / l + 5 * diff ^ 2 / (3 * l ^ 2))
            * Real.exp (-(Real.sqrt 5 * |diff| / l)))
    ∧ (∀ t : ℕ, motionTraj n sigma l vec t
        = f_matern n sigma l vec t
          - (∑ s ∈ Finset.range (trajLen n), f_matern n sigma l vec s) / trajLen n)
    ∧ (∑ t ∈ Finset.range (trajLen n), motionTraj n sigma l vec t) = 0
    ∧ trajLen 1000 = 159 := by
  refine ⟨fun diff => ?_, fun t => rfl, ?_, trajLen_1000⟩
  · rw [matern_kernel]
    have h5 : Real.sqrt 5 ^ 2 = 5 := Real.sq_sqrt (by norm_num)
    have hsq : (Real.sqrt 5 * |diff| / l) ^ 2 / 3 = 5 * diff ^ 2 / (3 * l ^ 2) := by
      rw [div_pow, mul_pow, h5, sq_abs]
      ring
    rw [hsq]
  · have hL : ((trajLen n : ℝ)) ≠ 0 := by
      have : (1 : ℝ) ≤ (trajLen n : ℝ) := by exact_mod_cast hn
      linarith
    simp only [motionTraj, demean, Finset.sum_sub_distrib, Finset.sum_const,
      Finset.card_range, nsmul_eq_mul]
    rw [mul_div_cancel₀ _ hL]
    ring

/-- Witness for C8_trajectory_pipeline at sigma = 1, l = 1, zero noise,
n_steps = 1000. -/
theorem C8_trajectory_pipeline_witness :
    (∀ diff : ℝ, matern_kernel 1 1 diff
        = 1 ^ 2 * (1 + Real.sqrt 5 * |diff| / 1 + 5 * diff ^ 2 / (3 * 1 ^ 2))
            * Real.exp (-(Real.sqrt 5 * |diff| / 1)))
    ∧ (∀ t : ℕ, motionTraj 1000 1 1 (fun _ => 0) t
        = f_matern 1000 1 1 (fun _ => 0) t
          - (∑ s ∈ Finset.range (trajLen 1000),
              f_matern 1000 1 1 (fun _ => 0) s) / trajLen 1000)
    ∧ (∑ t ∈ Finset.range (trajLen 1000), motionTraj 1000 1 1 (fun _ => 0) t) = 0
    ∧ trajLen 1000 = 159 :=
  C8_trajectory_pipeline 1000 1 1 (fun _ => 0) (by norm_num)
    (by rw [trajLen_1000]; norm_num)

/-- C7: both PSF generators normalize: whenever the total mass being
divided by is nonzero (the binned trajectory mass for the Motion
generator, the cropped diffraction intensity for the Diffraction
generator), every returned kernel has entries summing to exactly 1. -/
theorem C7_kernels_sum_to_one :
    (∀ (K1 K2 n : ℕ) (fx fy : ℕ → ℝ),
      (∑ a ∈ Finset.range K1, ∑ b ∈ Finset.range K2,
          histogramdd K1 K2 (trajLen n)
            (fun t => (demean (trajLen n) fx t, demean (trajLen n) fy t)) a b) ≠ 0 →
      ∑ i ∈ Finset.range K1, ∑ j ∈ Finset.range K2,
          motion_step K1 K2 n fx fy i j = 1)
    ∧ (∀ (Zs : List (ℝ → ℝ → ℝ)) (coeff : ℕ → ℝ) (P K1 K2 : ℕ) (fc : ℝ),
      (∑ a ∈ Finset.range K1, ∑ b ∈ Finset.range K2,
          diffractionCrop Zs coeff P K1 K2 fc a b) ≠ 0 →
      ∑ i ∈ Finset.range K1, ∑ j ∈ Finset.range K2,
          diffraction_step Zs coeff P K1 K2 fc i j = 1) := by
  constructor
  · intro K1 K2 n fx fy hT
    simp only [motion_step]
    rw [Finset.sum_congr rfl (fun i _ => (Finset.sum_div _ _ _).symm),
      ← Finset.sum_div, div_self hT]
  · intro Zs coeff P K1 K2 fc hT
    simp only [diffraction_step]
    rw [Finset.sum_congr rfl (fun i _ => (Finset.sum_div _ _ _).symm),
      ← Finset.sum_div, div_self hT]

/-- Witness for C7_kernels_sum_to_one: both parts applied at concrete
degenerate inputs (constant-zero trajectories on a 1x1 grid; a 1x1 pupil
with the piston basis function and zero coefficients). -/
theorem C7_kernels_sum_to_one_witness :
    (∑ i ∈ Finset.range 1, ∑ j ∈ Finset.range 1,
        motion_step 1 1 1000 (fun _ => 0) (fun _ => 0) i j = 1)
    ∧ (∑ i ∈ Finset.range 1, ∑ j ∈ Finset.range 1,
        diffraction_step [fun _ _ => 1] (fun _ => 0) 1 1 1 1 i j = 1) := by
  have hbin : binIdx 1 (0 : ℝ) = 0 := by
    simp [binIdx]
  have hdm : ∀ t : ℕ, demean 159 (fun _ : ℕ => (0 : ℝ)) t = 0 := by
    intro t
    simp [demean]
  constructor
  · apply C7_kernels_sum_to_one.1 1 1 1000 (fun _ => 0) (fun _ => 0)
    rw [trajLen_1000]
    rw [Finset.sum_range_one, Finset.sum_range_one]
    have hpts : (fun t => (demean 159 (fun _ : ℕ => (0 : ℝ)) t,
        demean 159 (fun _ : ℕ => (0 : ℝ)) t)) = fun _ : ℕ => ((0 : ℝ), (0 : ℝ)) :=
      funext (fun t => by rw [hdm t])
    rw [hpts, histogramdd]
    have hterm : ∀ t ∈ Finset.range 159,
        (if ((-1 ≤ ((0 : ℝ), (0 : ℝ)).1 ∧ ((0 : ℝ), (0 : ℝ)).1 ≤ 1
              ∧ -1 ≤ ((0 : ℝ), (0 : ℝ)).2 ∧ ((0 : ℝ), (0 : ℝ)).2 ≤ 1)
            ∧ binIdx 1 ((0 : ℝ), (0 : ℝ)).1 = 0 ∧ binIdx 1 ((0 : ℝ), (0 : ℝ)).2 = 0)
          then (1 : ℝ) else 0) = 1 := by
      intro t _
      rw [if_pos]
      exact ⟨⟨by norm_num, by norm_num, by norm_num, by norm_num⟩, hbin, hbin⟩
    rw [Finset.sum_congr rfl hterm]
    simp
  · apply C7_kernels_sum_to_one.2 [fun _ _ => 1] (fun _ => 0) 1 1 1 1
    rw [Finset.sum_range_one, Finset.sum_range_one]
    have heC0 : ∀ N : ℕ, eC 0 N = 1 := by
      intro N
      rw [eC]
      norm_num [Complex.exp_zero]
    have hphase : pupilPhase [fun _ _ => 1] (fun _ => 0) 1 1 0 0 = 0 := by
      simp [pupilPhase]
    have hrho : pupilRho 1 1 0 0 = Real.sqrt (1 / 2) := by
      rw [pupilRho, linspace, if_pos rfl]
      norm_num
    have hbump : bump_function 1 1 (pupilRho 1 1 0 0) = 1 := by
      rw [hrho, bump_function, if_pos]
      rw [abs_of_nonneg (Real.sqrt_nonneg _)]
      exact Real.sqrt_le_one.mpr (by norm_num)
    have hpup : pupil3 [fun _ _ => 1] (fun _ => 0) 1 1 0 0 = 1 := by
      rw [pupil3, hphase, hbump]
      norm_num [Complex.exp_zero]
    have hshift : fftshiftIdx 1 0 = 0 := by
      rw [fftshiftIdx]
    have hishift : ifftshiftIdx 1 0 = 0 := by
      rw [ifftshiftIdx]
    have hD : dft2 1 1 (fun a b => pupil3 [fun _ _ => 1] (fun _ => 0) 1 1
        (fftshiftIdx 1 a) (fftshiftIdx 1 b)) (ifftshiftIdx 1 0) (ifftshiftIdx 1 0)
          = 1 := by
      rw [hishift, dft2, Finset.sum_range_one, Finset.sum_range_one, hshift, hpup]
      norm_num [heC0 1]
    have hint : diffractionIntensity [fun _ _ => 1] (fun _ => 0) 1 1 0 0 = 1 := by
      rw [diffractionIntensity, hD]
      norm_num
    rw [diffractionCrop]
    norm_num [hint]

/-! ############################################################
    Theorems: discrete Fourier analysis for claims C5 and C6
    ############################################################ -/

/-- Unit roots multiply by adding exponents. -/
theorem eC_add (p q : ℤ) (N : ℕ) : eC p N * eC q N = eC (p + q) N := by
  rw [eC, eC, eC, ← Complex.exp_add]
  congr 1
  push_cast
  ring

/-- Powers of a unit root. -/
theorem eC_pow (a : ℤ) (N : ℕ) (n : ℕ) : eC a N ^ n = eC (a * n) N := by
  rw [eC, eC, ← Complex.exp_nat_mul]
  congr 1
  push_cast
  ring

/-- eC of a multiple of N is 1. -/
theorem eC_dvd_eq_one (N : ℕ) (a : ℤ) (h : (N : ℤ) ∣ a) : eC a N = 1 := by
  rcases Nat.eq_zero_or_pos N with hN | hN
  · rw [eC, hN]
    norm_num [Complex.exp_zero]
  · obtain ⟨t, rfl⟩ := h
    rw [eC]
    have hN0 : (N : ℂ) ≠ 0 := Nat.cast_ne_zero.mpr (by omega)
    have harg : 2 * (Real.pi : ℂ) * Complex.I * (((N : ℤ) * t : ℤ) : ℂ) / (N : ℂ)
        = (t : ℂ) * (2 * (Real.pi : ℂ) * Complex.I) := by
      push_cast
      field_simp
      ring
    rw [harg]
    exact_mod_cast Complex.exp_int_mul_two_pi_mul_I t

/-- A unit root equal to 1 has exponent divisible by N. -/
theorem eC_eq_one_dvd (N : ℕ) (hN : 1 ≤ N) (a : ℤ) (h : eC a N = 1) :
    (N : ℤ) ∣ a := by
  rw [eC, Complex.exp_eq_one_iff] at h
  obtain ⟨t, ht⟩ := h
  have hN0 : (N : ℂ) ≠ 0 := Nat.cast_ne_zero.mpr (by omega)
  have hne : (2 * (Real.pi : ℂ) * Complex.I) ≠ 0 := by
    have hpi : (Real.pi : ℂ) ≠ 0 := by
      exact_mod_cast Complex.ofReal_ne_zero.mpr Real.pi_ne_zero
    have hI : Complex.I ≠ 0 := Complex.I_ne_zero
    exact mul_ne_zero (mul_ne_zero two_ne_zero hpi) hI
  have hmain : (2 * (Real.pi : ℂ) * Complex.I) * (a : ℂ)
      = (2 * (Real.pi : ℂ) * Complex.I) * ((t : ℂ) * N) := by
    have hd := ht
    field_simp at hd
    linear_combination hd
  have hcast : (a : ℂ) = (t : ℂ) * N := mul_left_cancel₀ hne hmain
  refine ⟨t, ?_⟩
  have : (a : ℂ) = ((N * t : ℤ) : ℂ) := by
    rw [hcast]
    push_cast
    ring
  exact_mod_cast this

/-- Geometric sum of unit roots: N when N divides the exponent step,
0 otherwise. -/
theorem sum_root (N : ℕ) (hN : 1 ≤ N) (a : ℤ) :
    ∑ u ∈ Finset.range N, eC (a * u) N = if (N : ℤ) ∣ a then (N : ℂ) else 0 := by
  have hpow : ∀ u : ℕ, u ∈ Finset.range N → eC (a * u) N = eC a N ^ u :=
    fun u _ => (eC_pow a N u).symm
  rw [Finset.sum_congr rfl hpow]
  by_cases h : (N : ℤ) ∣ a
  · rw [if_pos h, eC_dvd_eq_one N a h]
    simp
  · rw [if_neg h]
    have hne : eC a N ≠ 1 := fun hc => h (eC_eq_one_dvd N hN a hc)
    rw [geom_sum_eq hne, eC_pow, eC_dvd_eq_one N (a * N) ⟨a, by ring⟩]
    simp

/-- Collapse of a divisibility-guarded sum: among c in range N exactly
c = (n + N - a) % N satisfies N dvd (n - a - c), when n, a < N. -/
theorem sum_dvd_pick (N : ℕ) (hN : 1 ≤ N) (n a : ℕ) (hn : n < N) (ha : a < N)
    (F : ℕ → ℂ) :
    ∑ c ∈ Finset.range N,
        (if (N : ℤ) ∣ ((n : ℤ) - a - c) then F c else 0)
      = F ((n + N - a) % N) := by
  set c0 : ℕ := (n + N - a) % N with hc0
  have hc0lt : c0 < N := Nat.mod_lt _ (by omega)
  have hd0 : (N : ℤ) ∣ ((n : ℤ) - a - c0) := by
    have hsub : ((n + N - a : ℕ) : ℤ) = (n : ℤ) + N - a := by
      push_cast [Nat.cast_sub (by omega : a ≤ n + N)]
      ring
    have hq := Nat.mod_add_div (n + N - a) N
    have hqz : (c0 : ℤ) + (N : ℤ) * (((n + N - a) / N : ℕ) : ℤ)
        = ((n + N - a : ℕ) : ℤ) := by
      rw [hc0]
      exact_mod_cast hq
    have hc0z : (c0 : ℤ) = (n : ℤ) + N - a - N * (((n + N - a) / N : ℕ) : ℤ) := by
      rw [hsub] at hqz
      linarith
    refine ⟨(((n + N - a) / N : ℕ) : ℤ) - 1, ?_⟩
    rw [hc0z]
    ring
  have hkey : ∀ c, c < N → (((N : ℤ) ∣ ((n : ℤ) - a - c)) ↔ c = c0) := by
    intro c hc
    constructor
    · intro hdc
      have hdiff : (N : ℤ) ∣ ((c0 : ℤ) - c) := by
        have : ((c0 : ℤ) - c) = ((n : ℤ) - a - c) - ((n : ℤ) - a - c0) := by ring
        rw [this]
        exact dvd_sub hdc hd0
      have habs : |(c0 : ℤ) - c| < (N : ℤ) := by
        rw [abs_lt]
        constructor <;> push_cast <;> omega
      have := Int.eq_zero_of_abs_lt_dvd hdiff habs
      omega
    · intro hc
      rw [hc]
      exact hd0
  have hcong : ∀ c, c ∈ Finset.range N →
      (if (N : ℤ) ∣ ((n : ℤ) - a - c) then F c else 0)
        = (if c = c0 then F c else 0) := by
    intro c hc
    simp only [Finset.mem_range] at hc
    by_cases hdc : (N : ℤ) ∣ ((n : ℤ) - a - c)
    · rw [if_pos hdc, if_pos ((hkey c hc).mp hdc)]
    · rw [if_neg hdc, if_neg (fun he => hdc ((hkey c hc).mpr he))]
  rw [Finset.sum_congr rfl hcong, Finset.sum_ite_eq' (Finset.range N) c0 F,
    if_pos (Finset.mem_range.mpr hc0lt)]

/-- 1D convolution theorem: the normalized inverse transform of the
product of two forward transforms is the circular convolution. -/
theorem conv1 (N : ℕ) (hN : 1 ≤ N) (f g : ℕ → ℂ) (n : ℕ) (hn : n < N) :
    (1 / (N : ℂ)) * ∑ u ∈ Finset.range N,
        (dft1 N f u * dft1 N g u) * eC (u * n) N
      = ∑ a ∈ Finset.range N, f a * g ((n + N - a) % N) := by
  have hexp : ∀ u, (dft1 N f u * dft1 N g u) * eC (u * n) N
      = ∑ a ∈ Finset.range N, ∑ c ∈ Finset.range N,
          f a * g c * eC (((n : ℤ) - a - c) * u) N := by
    intro u
    rw [dft1, dft1, Finset.sum_mul_sum, Finset.sum_mul]
    refine Finset.sum_congr rfl (fun a _ => ?_)
    rw [Finset.sum_mul]
    refine Finset.sum_congr rfl (fun c _ => ?_)
    have : f a * eC (-(u * a)) N * (g c * eC (-(u * c)) N) * eC (u * n) N
        = f a * g c * (eC (-(u * a)) N * eC (-(u * c)) N * eC (u * n) N) := by
      ring
    rw [this]
    congr 1
    rw [eC_add, eC_add]
    congr 1
    ring
  rw [Finset.sum_congr rfl (fun u _ => hexp u)]
  rw [Finset.sum_comm]
  have hswap : ∀ a, ∑ u ∈ Finset.range N, ∑ c ∈ Finset.range N,
      f a * g c * eC (((n : ℤ) - a - c) * u) N
        = ∑ c ∈ Finset.range N, f a * g c
            * (if (N : ℤ) ∣ ((n : ℤ) - a - c) then (N : ℂ) else 0) := by
    intro a
    rw [Finset.sum_comm]
    refine Finset.sum_congr rfl (fun c _ => ?_)
    rw [← Finset.mul_sum, sum_root N hN ((n : ℤ) - a - c)]
  rw [Finset.sum_congr rfl (fun a _ => hswap a), Finset.mul_sum]
  refine Finset.sum_congr rfl (fun a ha => ?_)
  simp only [Finset.mem_range] at ha
  have hpick : ∑ c ∈ Finset.range N, f a * g c
      * (if (N : ℤ) ∣ ((n : ℤ) - a - c) then (N : ℂ) else 0)
        = f a * (N : ℂ) * ∑ c ∈ Finset.range N,
            (if (N : ℤ) ∣ ((n : ℤ) - a - c) then g c else 0) := by
    rw [Finset.mul_sum]
    refine Finset.sum_congr rfl (fun c _ => ?_)
    by_cases hd : (N : ℤ) ∣ ((n : ℤ) - a - c)
    · rw [if_pos hd, if_pos hd]
      ring
    · rw [if_neg hd, if_neg hd]
      ring
  rw [hpick, sum_dvd_pick N hN n a hn ha g]
  have hN0 : (N : ℂ) ≠ 0 := Nat.cast_ne_zero.mpr (by omega)
  field_simp
  ring

/-- 2D convolution theorem: ifft2 of the product of two fft2 spectra is
the 2D circular convolution. -/
theorem conv2 (H W : ℕ) (hH : 1 ≤ H) (hW : 1 ≤ W) (x g : ℕ → ℕ → ℂ)
    (n m : ℕ) (hn : n < H) (hm : m < W) :
    idft2 H W (fun u v => dft2 H W x u v * dft2 H W g u v) n m
      = ∑ a ∈ Finset.range H, ∑ b ∈ Finset.range W,
          x a b * g ((n + H - a) % H) ((m + W - b) % W) := by
  have hH0 : (H : ℂ) ≠ 0 := Nat.cast_ne_zero.mpr (by omega)
  have hW0 : (W : ℂ) ≠ 0 := Nat.cast_ne_zero.mpr (by omega)
  have hdx : ∀ u v, dft2 H W x u v = dft1 W (fun b => dft1 H (fun a => x a b) u) v := by
    intro u v
    rw [dft2, dft1]
    rw [Finset.sum_comm]
    refine Finset.sum_congr rfl (fun b _ => ?_)
    rw [dft1, Finset.sum_mul]
  have hdg : ∀ u v, dft2 H W g u v = dft1 W (fun b => dft1 H (fun a => g a b) u) v := by
    intro u v
    rw [dft2, dft1]
    rw [Finset.sum_comm]
    refine Finset.sum_congr rfl (fun b _ => ?_)
    rw [dft1, Finset.sum_mul]
  have hsplit : idft2 H W (fun u v => dft2 H W x u v * dft2 H W g u v) n m
      = (1 / (H : ℂ)) * ∑ u ∈ Finset.range H,
          ((1 / (W : ℂ)) * ∑ v ∈ Finset.range W,
            (dft1 W (fun b => dft1 H (fun a => x a b) u) v
              * dft1 W (fun b => dft1 H (fun a => g a b) u) v) * eC (v * m) W)
            * eC (u * n) H := by
    rw [idft2, Finset.mul_sum]
    conv_rhs => rw [Finset.mul_sum]
    refine Finset.sum_congr rfl (fun u _ => ?_)
    rw [Finset.mul_sum, Finset.mul_sum, Finset.sum_mul, Finset.mul_sum]
    refine Finset.sum_congr rfl (fun v _ => ?_)
    rw [hdx u v, hdg u v]
    field_simp
    ring
  rw [hsplit]
  have hinner : ∀ u, (1 / (W : ℂ)) * ∑ v ∈ Finset.range W,
      (dft1 W (fun b => dft1 H (fun a => x a b) u) v
        * dft1 W (fun b => dft1 H (fun a => g a b) u) v) * eC (v * m) W
        = ∑ b ∈ Finset.range W,
            dft1 H (fun a => x a b) u * dft1 H (fun a => g a ((m + W - b) % W)) u :=
    fun u => conv1 W hW _ _ m hm
  rw [Finset.sum_congr rfl (fun u _ => by rw [hinner u])]
  have hstep : ∑ u ∈ Finset.range H,
      (∑ b ∈ Finset.range W,
        dft1 H (fun a => x a b) u * dft1 H (fun a => g a ((m + W - b) % W)) u)
        * eC (u * n) H
        = ∑ b ∈ Finset.range W, ∑ u ∈ Finset.range H,
            (dft1 H (fun a => x a b) u * dft1 H (fun a => g a ((m + W - b) % W)) u)
              * eC (u * n) H := by
    have hmul : ∀ u, (∑ b ∈ Finset.range W,
        dft1 H (fun a => x a b) u * dft1 H (fun a => g a ((m + W - b) % W)) u)
          * eC (u * n) H
        = ∑ b ∈ Finset.range W,
            (dft1 H (fun a => x a b) u * dft1 H (fun a => g a ((m + W - b) % W)) u)
              * eC (u * n) H := by
      intro u
      exact Finset.sum_mul _ _ _
    rw [Finset.sum_congr rfl (fun u _ => hmul u), Finset.sum_comm]
  rw [hstep, Finset.mul_sum]
  have houter : ∀ b, (1 / (H : ℂ)) * ∑ u ∈ Finset.range H,
      (dft1 H (fun a => x a b) u * dft1 H (fun a => g a ((m + W - b) % W)) u)
        * eC (u * n) H
        = ∑ a ∈ Finset.range H, x a b * g ((n + H - a) % H) ((m + W - b) % W) :=
    fun b => conv1 H hH _ _ n hn
  rw [Finset.sum_congr rfl (fun b _ => houter b), Finset.sum_comm]

/-- The frequency path of filter_fft is the circular convolution of the
image with the rolled zero-embedded kernel. -/
theorem fftConvPath_circ (H W h w : ℕ) (hH : 1 ≤ H) (hW : 1 ≤ W)
    (x : ℕ → ℕ → ℂ) (k : ℕ → ℕ → ℚ) (n m : ℕ) (hn : n < H) (hm : m < W) :
    fftConvPath H W h w x k n m
      = ∑ a ∈ Finset.range H, ∑ b ∈ Finset.range W,
          x a b * filt2rolled H W h w k ((n + H - a) % H) ((m + W - b) % W) := by
  rw [fftConvPath]
  exact conv2 H W hH hW x (filt2rolled H W h w k) n m hn hm


/-! ############################################################
    Claim C5: the frequency path of filter_fft
    ############################################################ -/

/-- C5 (amended): multiplying the image spectrum elementwise by
filter_fft(k) and inverse-transforming yields exactly the circular
convolution of the image with the rolled zero-embedded kernel (the
flipped-kernel counterpart of the cross-correlation that the spatial conv
computes), for every kernel and image of the declared shape. -/
theorem C5_fft_path_is_circular_convolution (H W h w : ℕ) (hH : 1 ≤ H)
    (hW : 1 ≤ W) (x : ℕ → ℕ → ℂ) (k : ℕ → ℕ → ℚ) (n m : ℕ)
    (hn : n < H) (hm : m < W) :
    fftConvPath H W h w x k n m
      = ∑ a ∈ Finset.range H, ∑ b ∈ Finset.range W,
          x a b * filt2rolled H W h w k ((n + H - a) % H) ((m + W - b) % W) :=
  fftConvPath_circ H W h w hH hW x k n m hn hm

/-- Witness for C5_fft_path_is_circular_convolution on a 1x1 image. -/
theorem C5_fft_path_is_circular_convolution_witness :
    fftConvPath 1 1 1 1 (fun _ _ => 1) (fun _ _ => 1) 0 0
      = ∑ a ∈ Finset.range 1, ∑ b ∈ Finset.range 1,
          (1 : ℂ) * filt2rolled 1 1 1 1 (fun _ _ => 1)
            ((0 + 1 - a) % 1) ((0 + 1 - b) % 1) :=
  C5_fft_path_is_circular_convolution 1 1 1 1 (by norm_num) (by norm_num)
    (fun _ _ => 1) (fun _ _ => 1) 0 0 (by norm_num) (by norm_num)

/-- Counterexample to C5 as frozen: for the asymmetric 3x3 kernel with a
single 1 at (0,0) on the 3x3 delta image, the frequency path gives 0 at
pixel (1,1) while the spatial conv under circular padding gives 1 there:
the multiplier reproduces convolution (flipped kernel), not the
cross-correlation conv computes. -/
theorem C5_counterexample :
    fftConvPath 3 3 3 3 xC5c kC5q 1 1
      ≠ ((convPlane PadMode.circular 3 3 3 3 kC5q xC5q 1 1 : ℚ) : ℂ) := by
  have hfft : fftConvPath 3 3 3 3 xC5c kC5q 1 1 = 0 := by
    rw [fftConvPath_circ 3 3 3 3 (by norm_num) (by norm_num) xC5c kC5q 1 1
      (by norm_num) (by norm_num)]
    rw [Finset.sum_range_succ, Finset.sum_range_succ, Finset.sum_range_succ,
      Finset.sum_range_succ, Finset.sum_range_succ, Finset.sum_range_succ,
      Finset.sum_range_succ, Finset.sum_range_succ, Finset.sum_range_succ,
      Finset.sum_range_succ, Finset.sum_range_succ, Finset.sum_range_succ]
    norm_num [xC5c, xC5q, kC5q, filt2rolled, filt2, padExtent]
  have hconv : convPlane PadMode.circular 3 3 3 3 kC5q xC5q 1 1 = 1 := by
    rw [convPlane, if_pos (show (1 : ℕ) < convOutH PadMode.circular 3 3
        ∧ (1 : ℕ) < convOutW PadMode.circular 3 3 by
      constructor <;> simp [convOutH, convOutW, padExtent])]
    · rw [cc]
      rw [Finset.sum_range_succ, Finset.sum_range_succ, Finset.sum_range_succ,
        Finset.sum_range_succ, Finset.sum_range_succ, Finset.sum_range_succ,
        Finset.sum_range_succ, Finset.sum_range_succ, Finset.sum_range_succ,
        Finset.sum_range_succ, Finset.sum_range_succ, Finset.sum_range_succ]
      norm_num [kC5q, xC5q, padIdx, padExtent]
    · decide
  rw [hfft, hconv]
  norm_num

/-! ############################################################
    Claim C6: the Downsampling proximal operator
    ############################################################ -/

/-- Unpacking the concatenation index of splits into the block grid. -/
theorem sum_grid (f : ℕ) (G : ℕ → ℕ → ℂ) (b : ℕ) :
    ∑ q ∈ Finset.range (f * b), G (q % f) (q / f)
      = ∑ k2 ∈ Finset.range b, ∑ k ∈ Finset.range f, G k k2 := by
  induction b with
  | zero => simp
  | succ t ih =>
    rw [Nat.mul_succ, Finset.sum_range_add, ih, Finset.sum_range_succ]
    congr 1
    refine Finset.sum_congr rfl (fun i hi => ?_)
    simp only [Finset.mem_range] at hi
    have hf : 0 < f := by omega
    rw [Nat.mul_add_mod, Nat.mod_eq_of_lt hi]
    congr 1
    rw [Nat.mul_add_div hf, Nat.div_eq_of_lt hi]
    omega

/-- The chunk/stack mean of splits equals the spec's explicit block-grid
mean. -/
theorem splitsMean_eq_specBlockMean (f H W : ℕ) (A : ℕ → ℕ → ℂ) (u v : ℕ) :
    splitsMean f H W A u v = specBlockMean f H W A u v := by
  rw [splitsMean, specBlockMean,
    sum_grid f (fun a b => A (a * (H / f) + u) (b * (W / f) + v)) f]
  congr 1
  rw [Finset.sum_comm]

/-- C6: Downsampling.prox_l2 runs the closed-form frequency-domain solve
exactly when FFT use is enabled and the padding is circular, and that
solve is the computation the spec describes (z_hat = adjoint(y) +
z/gamma, block-averaged Tikhonov solve in the frequency domain, result
gamma * (z_hat - r)); for every other padding policy the call delegates
to the base class's iterative least-squares proximal fallback. -/
theorem C6_prox_l2_branches
    (baseProx : (ℕ → ℕ → ℚ) → (ℕ → ℕ → ℚ) → ℚ → ℕ → ℕ → ℝ)
    (use_fft : Bool) (pad : PadMode) (f H W hk wk : ℕ) (kern : ℕ → ℕ → ℚ)
    (gamma : ℚ) (z y : ℕ → ℕ → ℚ) :
    (use_fft = true → pad = PadMode.circular →
      ∀ n m, prox_l2 baseProx use_fft pad f H W hk wk kern gamma z y n m
        = prox_l2_spec f H W hk wk kern gamma z y n m)
    ∧ (pad ≠ PadMode.circular →
      ∀ n m, prox_l2 baseProx use_fft pad f H W hk wk kern gamma z y n m
        = baseProx z y gamma n m) := by
  constructor
  · intro hu hp n m
    rw [prox_l2, if_pos ⟨hu, hp⟩]
    rw [prox_l2_closed, prox_l2_spec]
    simp only [splitsMean_eq_specBlockMean]
  · intro hp n m
    rw [prox_l2, if_neg]
    intro hcon
    exact hp hcon.2

/-- Witness for C6_prox_l2_branches: the circular/FFT branch instantiated
with factor 2 on a 2x2 grid, identity-like data. -/
theorem C6_prox_l2_branches_witness :
    prox_l2 (fun _ _ _ _ _ => 0) true PadMode.circular 2 2 2 1 1
        (fun _ _ => 1) 1 (fun _ _ => 0) (fun _ _ => 0) 0 0
      = prox_l2_spec 2 2 2 1 1 (fun _ _ => 1) 1 (fun _ _ => 0) (fun _ _ => 0) 0 0 :=
  (C6_prox_l2_branches (fun _ _ _ _ _ => 0) true PadMode.circular 2 2 2 1 1
    (fun _ _ => 1) 1 (fun _ _ => 0) (fun _ _ => 0)).1 rfl rfl 0 0

end DeepInv
